import Mathlib

/-!
Verification of the `ChrmProf` chromosome-profile model.

Shallow embedding of `src/sim/chrm_prof.py` (class `ChrmProf`, its node
classes `_OrgNode` / `_MutNode`, and the module-level helpers).

Modelling conventions:
* The doubly linked chains of `_OrgNode` / `_MutNode` are represented as Lean
  lists in chain order (`ChrmProf.org`, `ChrmProf.mut_`).
* A `_MutNode.parent` pointer is represented by the `(bgn, end)` interval of
  the parent `_OrgNode` (fields `pbgn`, `pend`).  On reachable states the
  original partition has pairwise distinct intervals, so the interval
  identifies the node; `children` lists are derived (a node's children are the
  mutated segments whose parent interval equals the node's interval), which
  matches the Python bookkeeping where parent pointers and children lists are
  kept mutually consistent.
* Python coordinates are `Int` (the code compares `bgn < 0`).
* A Python crash (attribute error on `None`, or unpacking `None`) is modelled
  by `Option`: mutators return `none` exactly where the Python code would
  raise, and `some (b, p')` where the Python code returns boolean `b` leaving
  state `p'`.
* The random sampling in `get_sv_read_nums` (`random.choice` + `sort`) is
  replaced by an explicit parameter `ps`, the sorted list of sampled read
  centers; everything downstream of the sampling is translated faithfully.
-/

set_option linter.unusedVariables false

/-- Interval of an `_OrgNode` (`bgn`/`end` in original coordinates),
`chrm_prof.py` lines 290-296. -/
structure OrgSeg where
  bgn : Int
  end_ : Int
deriving DecidableEq, Repr

/-- A `_MutNode` (`chrm_prof.py` lines 309-316): interval in current mutated
coordinates, parent original interval, inversion flag. -/
structure MutSeg where
  bgn : Int
  end_ : Int
  pbgn : Int
  pend : Int
  is_inv : Bool
deriving DecidableEq, Repr

/-- The `ChrmProf` state: live sequence plus the two chains
(`chrm_prof.py` lines 23-30). -/
structure ChrmProf where
  chrm : List Char
  org : List OrgSeg
  mut_ : List MutSeg
deriving DecidableEq, Repr

/-- `ChrmProf.__init__` (lines 25-30): one original and one mutated segment
spanning the whole input. -/
def ChrmProf.create (chrm : List Char) : ChrmProf :=
  { chrm := chrm
    org := [⟨0, (chrm.length : Int) - 1⟩]
    mut_ := [⟨0, (chrm.length : Int) - 1, 0, (chrm.length : Int) - 1, false⟩] }

/-- Linear scan of a chain for the first node satisfying `p`; returns the
nodes strictly before it, the node, and the nodes after it.  This is the
`while cur != None and not p(cur): cur = cur.r` pattern used throughout the
Python code; `none` means the scan ran off the end of the chain. -/
def findSeg {α : Type} (p : α → Bool) : List α → Option (List α × α × List α)
  | [] => none
  | x :: xs =>
    if p x then some ([], x, xs)
    else
      match findSeg p xs with
      | none => none
      | some (pre, y, post) => some (x :: pre, y, post)

/-- `_OrgNode.split` (lines 299-307): `k + self.bgn` is the begin of the new
right sibling. -/
def OrgSeg.split (o : OrgSeg) (k : Int) : OrgSeg × OrgSeg :=
  (⟨o.bgn, o.bgn + k - 1⟩, ⟨o.bgn + k, o.end_⟩)

/-- `_MutNode.split` (lines 319-327): both halves keep `is_inv`; the caller
(`ChrmProf._split`) reassigns the right half's parent. -/
def MutSeg.split (m : MutSeg) (k : Int) : MutSeg × MutSeg :=
  (⟨m.bgn, m.bgn + k - 1, m.pbgn, m.pend, m.is_inv⟩,
   ⟨m.bgn + k, m.end_, m.pbgn, m.pend, m.is_inv⟩)

/-- `ChrmProf._split` (lines 174-198).  Finds the mutated node containing
position `k`, and unless `k` already coincides with that node's `bgn` or
`end` splits its parent original node and every mutated child of that parent
at the aligned offset.  `none` models the `AttributeError` raised when no
mutated node contains `k` (`splitMut.parent` with `splitMut = None`). -/
def ChrmProf.splitAtPos (p : ChrmProf) (k : Int) : Option ChrmProf :=
  if k = 0 ∨ k ≥ (p.chrm.length : Int) then some p
  else
    match findSeg (fun m => m.bgn ≤ k && k ≤ m.end_) p.mut_ with
    | none => none
    | some (_, sm, _) =>
      if sm.bgn = k ∨ sm.end_ = k then some p
      else
        let off := k - sm.bgn
        let pb := sm.pbgn
        let pe := sm.pend
        let newOrg := p.org.flatMap fun o =>
          if o.bgn = pb ∧ o.end_ = pe then [(o.split off).1, (o.split off).2] else [o]
        let newMut := p.mut_.flatMap fun m =>
          if m.pbgn = pb ∧ m.pend = pe then
            [{ (m.split off).1 with pend := pb + off - 1 },
             { (m.split off).2 with pbgn := pb + off }]
          else [m]
        some { p with org := newOrg, mut_ := newMut }

/-- `ChrmProf._2split` (lines 166-171): split at `bgn` and `end+1`, skipping
the sequence extremes. -/
def ChrmProf.twoSplit (p : ChrmProf) (bgn end_ : Int) : Option ChrmProf :=
  match (if bgn > 0 then p.splitAtPos bgn else some p) with
  | none => none
  | some p1 => if end_ + 1 < (p.chrm.length : Int) then p1.splitAtPos (end_ + 1) else some p1

/-- `ChrmProf._is_in_bounds` (lines 200-205). -/
def ChrmProf.isInBounds (p : ChrmProf) (bgn end_ : Int) : Bool :=
  !(bgn < 0 || bgn > end_ || end_ ≥ (p.chrm.length : Int))

/-- `_is_already_mut_bgn` (lines 347-352). -/
def isAlreadyMutBgn (l : List MutSeg) (bgn : Int) : Bool :=
  l.any fun m => m.bgn == bgn

/-- `_is_already_mut_end` (lines 353-358). -/
def isAlreadyMutEnd (l : List MutSeg) (end_ : Int) : Bool :=
  l.any fun m => m.end_ == end_

/-- `ChrmProf._is_splitable` (lines 208-214). -/
def ChrmProf.isSplitable (p : ChrmProf) (bgn end_ : Int) : Bool :=
  let n : Int := p.chrm.length
  !(bgn != 0 && isAlreadyMutBgn p.mut_ bgn) && !(end_ + 1 < n && isAlreadyMutEnd p.mut_ end_)

/-- `tri_split_str` (lines 398-402): `(s[:bgn], s[bgn:end+1], s[end+1:])`.
Call sites guarantee `0 ≤ bgn ≤ end`, where Python's slice clamping agrees
with `toNat` clamping. -/
def tri_split_str (s : List Char) (bgn end_ : Int) : List Char × List Char × List Char :=
  (s.take bgn.toNat, (s.drop bgn.toNat).take (end_ + 1 - bgn).toNat, s.drop (end_ + 1).toNat)

/-- `_get_inv_pos_diff` (lines 389-396): the position shift applied to a
segment `[sgbgn, sgend]` when the region `[rgbgn, rgend]` is reversed.
Call sites guarantee `rglen ≥ 1`, where `(rglen + 1) / 2` agrees with
Python's `int(math.ceil(float(rglen) / 2.0))`. -/
def getInvPosDiff (rgbgn rgend sgbgn sgend : Int) : Int :=
  let rglen := rgend - rgbgn + 1
  let sglen := sgend - sgbgn + 1
  let mid := (rglen + 1) / 2 + rgbgn - 1
  let l := mid - sgend
  if rglen % 2 = 0 then 2 * l + sglen else 2 * l + sglen - 1

/-- The update applied to each node inside the reversed region
(lines 246-249 of `_rev_mut`): shift by `_get_inv_pos_diff` and toggle
`is_inv`. -/
def invUpd (rgbgn rgend : Int) (m : MutSeg) : MutSeg :=
  let d := getInvPosDiff rgbgn rgend m.bgn m.end_
  { m with bgn := m.bgn + d, end_ := m.end_ + d, is_inv := !m.is_inv }

/-- `ChrmProf._rev_mut` (lines 226-260): reverse the sub-chain from the node
whose `bgn` is `bgn` to the node whose `end` is `end`, updating each node by
`invUpd`.  `none` models the `AttributeError` on `cur.l` / `cur.r` when
either scan runs off the end of the chain. -/
def ChrmProf.revMut (p : ChrmProf) (bgn end_ : Int) : Option ChrmProf :=
  match findSeg (fun m => m.bgn == bgn) p.mut_ with
  | none => none
  | some (pre, ih, rest) =>
    match findSeg (fun m => m.end_ == end_) (ih :: rest) with
    | none => none
    | some (mid1, it, post) =>
      let rgbgn := ih.bgn
      let rgend := it.end_
      some { p with
        mut_ := pre ++ ((mid1 ++ [it]).map (invUpd rgbgn rgend)).reverse ++ post }

/-- `ChrmProf.inv` (lines 89-99). -/
def ChrmProf.inv (p : ChrmProf) (bgn end_ : Int) : Option (Bool × ChrmProf) :=
  if !(p.isInBounds bgn end_) || !(p.isSplitable bgn end_) then some (false, p)
  else
    match p.twoSplit bgn end_ with
    | none => none
    | some p2 =>
      match p2.revMut bgn end_ with
      | none => none
      | some p3 =>
        let t := tri_split_str p3.chrm bgn end_
        some (true, { p3 with chrm := t.1 ++ t.2.1.reverse ++ t.2.2 })

/-- Coordinate shift applied by `ChrmProf.rem` (lines 126-132) to every
node right of the removed region. -/
def remDown (segLen : Int) (m : MutSeg) : MutSeg :=
  { m with bgn := m.bgn - segLen, end_ := m.end_ - segLen }

/-- `ChrmProf.rem` (lines 101-137).  The head/tail scans are
`_get_head_tail` (lines 337-344); `none` models the `AttributeError` on
`head.l` / `tail.r` when a scan fails.  Unlinking the sub-chain removes its
nodes from their parents' children lists (children are derived here), and the
nodes to the right of the removed region are shifted down. -/
def ChrmProf.rem (p : ChrmProf) (bgn end_ : Int) : Option (Bool × ChrmProf) :=
  if !(p.isInBounds bgn end_) || !(p.isSplitable bgn end_) then some (false, p)
  else
    match p.twoSplit bgn end_ with
    | none => none
    | some p2 =>
      match findSeg (fun m => m.bgn == bgn) p2.mut_ with
      | none => none
      | some (pre, head, rest) =>
        match findSeg (fun m => m.end_ == end_) (head :: rest) with
        | none => none
        | some (_, _, post) =>
          let segLen := end_ - bgn + 1
          let t := tri_split_str p2.chrm bgn end_
          some (true, { p2 with
            mut_ := pre ++ post.map (remDown segLen)
            chrm := t.1 ++ t.2.2 })

/-- Coordinate shift applied by `ChrmProf.amp` (lines 153-158) to the
duplicated run and everything to its right. -/
def ampUp (segLen : Int) (m : MutSeg) : MutSeg :=
  { m with bgn := m.bgn + segLen, end_ := m.end_ + segLen }

/-- `ChrmProf.amp` (lines 140-163).  `_copy_from_to` (lines 361-382) copies
the sub-chain from the node with begin `bgn` through the node with end `end`
(each copy keeping its source's parent and `is_inv`), the copy is spliced
immediately after the original run, and the copy plus everything after it is
shifted up by the region length.  `none` models the `TypeError` raised when
`_copy_from_to` falls off the chain and returns `None`. -/
def ChrmProf.amp (p : ChrmProf) (bgn end_ : Int) : Option (Bool × ChrmProf) :=
  if !(p.isInBounds bgn end_) || !(p.isSplitable bgn end_) then some (false, p)
  else
    match p.twoSplit bgn end_ with
    | none => none
    | some p2 =>
      match findSeg (fun m => m.bgn == bgn) p2.mut_ with
      | none => none
      | some (pre, head, rest) =>
        match findSeg (fun m => m.end_ == end_) (head :: rest) with
        | none => none
        | some (mid1, it, post) =>
          let mid := mid1 ++ [it]
          let segLen := end_ - bgn + 1
          let t := tri_split_str p2.chrm bgn end_
          some (true, { p2 with
            mut_ := (pre ++ mid) ++ (mid ++ post).map (ampUp segLen)
            chrm := t.1 ++ t.2.1 ++ t.2.1 ++ t.2.2 })

/-- Number of mutated segments registered to the original interval
`(ob, oe)` — `len(cur.children)` in `get_copy_nums` (line 41). -/
def countParent (l : List MutSeg) (ob oe : Int) : Nat :=
  l.countP fun m => m.pbgn == ob && m.pend == oe

/-- Copy number of the original segment `(ob, oe)` in profile `p`. -/
def copyNum (p : ChrmProf) (ob oe : Int) : Nat :=
  countParent p.mut_ ob oe

/-- `ChrmProf.get_copy_nums` (lines 35-43). -/
def ChrmProf.get_copy_nums (p : ChrmProf) : List Int × List Int × List Nat :=
  (p.org.map OrgSeg.bgn, p.org.map OrgSeg.end_,
   p.org.map fun o => copyNum p o.bgn o.end_)

/-- `_is_between` (lines 405-406). -/
def isBetween (x a b : Int) : Bool :=
  a ≤ x && x ≤ b

/-- One record of the `svs` dict built by `get_sv_read_nums`: the optional
`mate` key plus the two counters (`_add_sv_to_dict`, lines 447-468). -/
structure SvRec where
  total_reads : Nat
  mated_reads : Nat
  mate : Option (Int × Bool)
deriving DecidableEq, Repr

/-- The `svs` Python dict, as an association list keyed by breakpoint tuples
`(position, isLeft)`. -/
abbrev SvDict : Type :=
  List ((Int × Bool) × SvRec)

/-- Dict lookup (`svs[k]`, `k in svs`). -/
def dFind : SvDict → (Int × Bool) → Option SvRec
  | [], _ => none
  | kv :: rest, k => if kv.1 = k then some kv.2 else dFind rest k

/-- Dict write (`svs[k] = v`): overwrites the binding in place, else appends. -/
def dSet : SvDict → (Int × Bool) → SvRec → SvDict
  | [], k, v => [(k, v)]
  | kv :: rest, k, v => if kv.1 = k then (k, v) :: rest else kv :: dSet rest k v

/-- In-place update of an existing binding (`svs[k]['total_reads'] += 1`
etc.).  All call sites insert the key first; on a missing key Python would
raise `KeyError`, a branch that is never taken. -/
def dUpdate (svs : SvDict) (k : Int × Bool) (f : SvRec → SvRec) : SvDict :=
  match dFind svs k with
  | none => svs
  | some r => dSet svs k (f r)

/-- `_get_org_pos` (lines 431-436). -/
def getOrgPos (node : MutSeg) (isBgn : Bool) : Int :=
  let isBgn' := if node.is_inv then !isBgn else isBgn
  if isBgn' then node.pbgn else node.pend

/-- `_get_cur_pos` (lines 438-445): the breakpoint tuple
`(position, isLeft)` of the current node's crossed edge. -/
def getCurPos (cur : MutSeg) (isBgn : Bool) : Int × Bool :=
  let isLeft := !isBgn
  let isLeft := if cur.is_inv then !isLeft else isLeft
  if isLeft then (cur.pend, isLeft) else (cur.pbgn, isLeft)

/-- `_get_mated_pos` (lines 414-428).  The node is given by its index `i`
into the mutated chain; the mate is the chain neighbor on the crossed side
(`cur.l` for a begin crossing, `cur.r` for an end crossing).  `none` models
`mate == None`. -/
def getMatedPos (ml : List MutSeg) (i : Nat) (isBgn : Bool) : Option (Int × Bool × Bool) :=
  match ml.get? i with
  | none => none
  | some cur =>
    match (if isBgn then (if i = 0 then none else ml.get? (i - 1)) else ml.get? (i + 1)) with
    | none => none
    | some mate =>
      let curPos := getOrgPos cur isBgn
      let matePos := getOrgPos mate (!isBgn)
      let isLeft := mate.pend = matePos
      let isAdj := (curPos - matePos).natAbs = 1
      some (matePos, isLeft, isAdj)

/-- `_add_sv_to_dict` (lines 447-468). -/
def addSv (svs : SvDict) (ml : List MutSeg) (i : Nat) (isBgn : Bool) : SvDict :=
  match ml.get? i with
  | none => svs
  | some cur =>
    match getMatedPos ml i isBgn with
    | none => svs
    | some (matePos, mateIsLeft, isAdj) =>
      let curTup := getCurPos cur isBgn
      let mateTup := (matePos, mateIsLeft)
      let svs := if (dFind svs curTup).isNone then dSet svs curTup ⟨0, 0, none⟩ else svs
      let svs := if (dFind svs mateTup).isNone then dSet svs mateTup ⟨0, 0, none⟩ else svs
      let svs := dUpdate svs curTup fun r => { r with total_reads := r.total_reads + 1 }
      if isAdj then svs
      else
        let svs := dUpdate svs curTup fun r =>
          { r with mated_reads := r.mated_reads + 1, mate := some mateTup }
        dUpdate svs mateTup fun r => { r with mate := some curTup }

/-- The sampling loop of `get_sv_read_nums` (lines 62-77): `i` is the index
of the chain pointer `cur` (`cur = None` iff `i ≥ mut.length`), `ps` the
remaining sorted read centers, `d` the half read length. -/
def svLoop (ml : List MutSeg) (d : Int) : List Int → Nat → SvDict → SvDict
  | [], _, svs => svs
  | p :: ps, i, svs =>
    match ml.get? i with
    | none => svs
    | some cur =>
      let i2 := if cur.end_ < p then i + 1 else i
      match ml.get? i2 with
      | none => svs
      | some cur2 =>
        let svs := if isBetween cur2.bgn (p - d) (p + d) then addSv svs ml i2 true else svs
        let svs := if isBetween cur2.end_ (p - d) (p + d) then addSv svs ml i2 false else svs
        svLoop ml d ps i2 svs

/-- `ChrmProf.get_sv_read_nums` (lines 52-87).  `ps` replaces the random
sampling: it is the sorted list of sampled read centers (`random.choice`
over `[0, n)` repeated `ceil(n / read_len * cov)` times, then sorted).  The
final filter drops every breakpoint record that never acquired a `mate`. -/
def ChrmProf.get_sv_read_nums (p : ChrmProf) (ps : List Int) (read_len0 : Int) : SvDict :=
  let read_len := if read_len0 % 2 = 0 then read_len0 + 1 else read_len0
  let d := read_len / 2
  let svs := svLoop p.mut_ d ps 0 []
  svs.filter fun kv => kv.2.mate.isSome

/-- The reversal mapping stated by the specification: a segment `[s0, s1]`
inside a reversed region `[R0, R1]` is sent to `[R0+R1-s1, R0+R1-s0]`, its
orientation flag toggled, its parent unchanged. -/
def mirrorSeg (R0 R1 : Int) (m : MutSeg) : MutSeg :=
  ⟨R0 + R1 - m.end_, R0 + R1 - m.bgn, m.pbgn, m.pend, !m.is_inv⟩

/-! ## Contiguous partitions -/

/-- `Chain c ivs d`: the intervals `ivs` tile `[c, d)` contiguously and in
order — each interval begins where the previous one ended (+1), the first
begins at `c`, and the last ends at `d - 1`. -/
def Chain : Int → List (Int × Int) → Int → Prop
  | c, [], d => c = d
  | c, iv :: l, d => iv.1 = c ∧ Chain (iv.2 + 1) l d

instance instDecidableChain : ∀ (c : Int) (l : List (Int × Int)) (d : Int), Decidable (Chain c l d)
  | _, [], _ => by unfold Chain; infer_instance
  | c, iv :: l, d =>
    have : Decidable (Chain (iv.2 + 1) l d) := instDecidableChain (iv.2 + 1) l d
    by unfold Chain; infer_instance

/-- Interval of an original node. -/
def OrgSeg.iv (o : OrgSeg) : Int × Int :=
  (o.bgn, o.end_)

/-- Interval of a mutated node. -/
def MutSeg.iv (m : MutSeg) : Int × Int :=
  (m.bgn, m.end_)

/-- Sum of interval lengths. -/
def ivLenSum (l : List (Int × Int)) : Int :=
  (l.map fun iv => iv.2 - iv.1 + 1).sum

/-! ## The reachable-state invariant -/

/-- Invariant of every state reachable from `create s`: both partitions are
contiguous ordered tilings (of `[0, N)` and `[0, M)` respectively), every
mutated segment spans exactly as many positions as its parent original
segment, every parent interval is present in the original partition, all
segment lengths are nonnegative, and — as long as the live sequence is
nonempty — all mutated segment lengths are positive. -/
structure ProfInv (s : List Char) (p : ChrmProf) : Prop where
  orgChain : Chain 0 (p.org.map OrgSeg.iv) s.length
  mutChain : Chain 0 (p.mut_.map MutSeg.iv) p.chrm.length
  parentLen : ∀ m ∈ p.mut_, m.end_ - m.bgn = m.pend - m.pbgn
  parentMem : ∀ m ∈ p.mut_, (⟨m.pbgn, m.pend⟩ : OrgSeg) ∈ p.org
  orgLen0 : ∀ o ∈ p.org, o.bgn ≤ o.end_ + 1
  mutLen0 : ∀ m ∈ p.mut_, m.bgn ≤ m.end_ + 1
  mutLenPos : p.chrm ≠ [] → ∀ m ∈ p.mut_, m.bgn ≤ m.end_

/-! ## Reachability -/

/-- States reachable from `create s` by any sequence of completed `inv` /
`rem` / `amp` calls (calls that raise are not completed and yield no state). -/
inductive Reachable (s : List Char) : ChrmProf → Prop where
  | init : Reachable s (ChrmProf.create s)
  | invStep {p : ChrmProf} {b e : Int} {r : Bool} {p' : ChrmProf} :
      Reachable s p → p.inv b e = some (r, p') → Reachable s p'
  | remStep {p : ChrmProf} {b e : Int} {r : Bool} {p' : ChrmProf} :
      Reachable s p → p.rem b e = some (r, p') → Reachable s p'
  | ampStep {p : ChrmProf} {b e : Int} {r : Bool} {p' : ChrmProf} :
      Reachable s p → p.amp b e = some (r, p') → Reachable s p'

/-- The record stored for key `k`, or a fresh `{total 0, mated 0, no mate}`
record if the key is absent (the shape inserted by `_add_sv_to_dict`). -/
def recGetD (svs : SvDict) (k : Int × Bool) : SvRec :=
  (dFind svs k).getD ⟨0, 0, none⟩

/-! ## Concrete profiles used as witnesses and counterexamples -/

/-- The specification's example chromosome `"ATCCGA"`. -/
def cs6 : List Char :=
  "ATCCGA".toList

/-- The chromosome `"ABCDEF"` used to build a deletion junction. -/
def csABCDEF : List Char :=
  "ABCDEF".toList

/-- The state of `ChrmProf("ATCCGA")` after a successful `inv(1, 3)`. -/
def pInv1 : ChrmProf :=
  ⟨"ACCTGA".toList, [⟨0, 0⟩, ⟨1, 3⟩, ⟨4, 5⟩],
   [⟨0, 0, 0, 0, false⟩, ⟨1, 3, 1, 3, true⟩, ⟨4, 5, 4, 5, false⟩]⟩

/-- The state of `ChrmProf("ATCCGA")` after a successful `amp(1, 3)`. -/
def pAmp1 : ChrmProf :=
  ⟨"ATCCTCCGA".toList, [⟨0, 0⟩, ⟨1, 3⟩, ⟨4, 5⟩],
   [⟨0, 0, 0, 0, false⟩, ⟨1, 3, 1, 3, false⟩, ⟨4, 6, 1, 3, false⟩, ⟨7, 8, 4, 5, false⟩]⟩

/-- The state of `ChrmProf("ATCCGA")` after a successful `rem(1, 3)`. -/
def pRem1 : ChrmProf :=
  ⟨"AGA".toList, [⟨0, 0⟩, ⟨1, 3⟩, ⟨4, 5⟩],
   [⟨0, 0, 0, 0, false⟩, ⟨1, 2, 4, 5, false⟩]⟩

/-- The state of `ChrmProf("ABCDEF")` after a successful `rem(2, 3)`: the
junction at position 2 joins original positions 1 and 4. -/
def pABEF : ChrmProf :=
  ⟨"ABEF".toList, [⟨0, 1⟩, ⟨2, 3⟩, ⟨4, 5⟩],
   [⟨0, 1, 0, 1, false⟩, ⟨2, 3, 4, 5, false⟩]⟩

/-- The record produced for breakpoint `(1, true)` in the `pABEF` run. -/
def svRecC8 : SvRec :=
  ⟨1, 1, some (4, false)⟩

/-! ## Specification of the chain scan -/

theorem findSeg_eq {α : Type} {p : α → Bool} {l pre post : List α} {x : α}
    (h : findSeg p l = some (pre, x, post)) :
    l = pre ++ x :: post ∧ p x = true ∧ ∀ z ∈ pre, p z = false := by
  induction l generalizing pre with
  | nil => simp [findSeg] at h
  | cons a l ih =>
    rw [findSeg] at h
    by_cases hp : p a
    · simp [hp] at h
      obtain ⟨h1, h2, h3⟩ := h
      subst h1 h2 h3
      simp [hp]
    · simp [hp] at h
      match hfs : findSeg p l with
      | none => rw [hfs] at h; simp at h
      | some (pre', y, post') =>
        rw [hfs] at h
        simp at h
        obtain ⟨h1, h2, h3⟩ := h
        subst h1 h2 h3
        obtain ⟨e1, e2, e3⟩ := ih hfs
        subst e1
        refine ⟨rfl, e2, ?_⟩
        intro z hz
        rcases List.mem_cons.mp hz with hz | hz
        · subst hz; exact Bool.of_not_eq_true hp
        · exact e3 z hz

theorem findSeg_intro {α : Type} {p : α → Bool} (pre : List α) (x : α) (post : List α)
    (hpre : ∀ z ∈ pre, p z = false) (hx : p x = true) :
    findSeg p (pre ++ x :: post) = some (pre, x, post) := by
  induction pre with
  | nil => simp [findSeg, hx]
  | cons a pre ih =>
    have ha : p a = false := hpre a (List.mem_cons_self a pre)
    rw [List.cons_append, findSeg, ha]
    simp only [Bool.false_eq_true, if_false]
    rw [ih fun z hz => hpre z (List.mem_cons_of_mem a hz)]

/-! ## The mirror law -/

/-- For a nonempty region, `_get_inv_pos_diff` equals the mirror-law shift
`R0 + R1 - s0 - s1`, for both parities of the region length. -/
theorem getInvPosDiff_eq (b e s0 s1 : Int) (h : b ≤ e) :
    getInvPosDiff b e s0 s1 = b + e - s0 - s1 := by
  unfold getInvPosDiff
  dsimp only
  split <;> omega

/-- Hence the node update performed by `_rev_mut` is exactly the mirror law. -/
theorem invUpd_eq_mirrorSeg (b e : Int) (m : MutSeg) (h : b ≤ e) :
    invUpd b e m = mirrorSeg b e m := by
  unfold invUpd mirrorSeg
  rw [getInvPosDiff_eq b e m.bgn m.end_ h]
  cases m with
  | mk mb me mpb mpe mi => simp; omega

/-! ## Structure of successful operator calls -/

theorem isInBounds_spec {p : ChrmProf} {b e : Int} (h : p.isInBounds b e = true) :
    0 ≤ b ∧ b ≤ e ∧ e < (p.chrm.length : Int) := by
  simp [ChrmProf.isInBounds] at h
  omega

/-- `_split` never touches the sequence string. -/
theorem splitAtPos_chrm {p p2 : ChrmProf} {k : Int} (h : p.splitAtPos k = some p2) :
    p2.chrm = p.chrm := by
  unfold ChrmProf.splitAtPos at h
  split at h
  · simp at h; subst h; rfl
  · split at h
    · simp at h
    · split at h
      · simp at h; subst h; rfl
      · simp at h; subst h; rfl

/-- `_2split` never touches the sequence string. -/
theorem twoSplit_chrm {p p2 : ChrmProf} {b e : Int} (h : p.twoSplit b e = some p2) :
    p2.chrm = p.chrm := by
  unfold ChrmProf.twoSplit at h
  split at h
  · simp at h
  · next p1 heq =>
    have h1 : p1.chrm = p.chrm := by
      split at heq
      · exact splitAtPos_chrm (by simpa using heq)
      · simp at heq; subst heq; rfl
    split at h
    · exact (splitAtPos_chrm h).trans h1
    · simp at h; subst h; exact h1

/-- Structure of a successful `inv` call: the guards passed, and the mutated
chain decomposes as `pre ++ mid ++ post` after the splits, with the region
`mid` running from a node beginning at `bgn` to a node ending at `end`;
the call replaces `mid` by its reversal under the mirror law. -/
theorem inv_success {p p' : ChrmProf} {b e : Int} (h : p.inv b e = some (true, p')) :
    p.isInBounds b e = true ∧ p.isSplitable b e = true ∧
    ∃ p2 pre mid post ih it,
      p.twoSplit b e = some p2 ∧
      p2.mut_ = pre ++ mid ++ post ∧
      mid.head? = some ih ∧ mid.getLast? = some it ∧
      ih.bgn = b ∧ it.end_ = e ∧
      p'.org = p2.org ∧
      p'.chrm = (tri_split_str p2.chrm b e).1 ++ (tri_split_str p2.chrm b e).2.1.reverse ++
        (tri_split_str p2.chrm b e).2.2 ∧
      p'.mut_ = pre ++ (mid.map (mirrorSeg b e)).reverse ++ post := by
  unfold ChrmProf.inv at h
  split at h
  · simp at h
  · next hg =>
    rw [Bool.or_eq_true, not_or] at hg
    obtain ⟨hg1, hg2⟩ := hg
    rw [Bool.not_eq_true', Bool.not_eq_false] at hg1 hg2
    refine ⟨hg1, hg2, ?_⟩
    have hbe : b ≤ e := (isInBounds_spec hg1).2.1
    match hts : p.twoSplit b e with
    | none => rw [hts] at h; simp at h
    | some p2 =>
      rw [hts] at h
      dsimp only at h
      match hrv : p2.revMut b e with
      | none => rw [hrv] at h; simp at h
      | some p3 =>
        rw [hrv] at h
        dsimp only at h
        simp only [Option.some.injEq, Prod.mk.injEq, true_and] at h
        unfold ChrmProf.revMut at hrv
        match hf1 : findSeg (fun m => m.bgn == b) p2.mut_ with
        | none => rw [hf1] at hrv; simp at hrv
        | some (pre, ih, rest) =>
          rw [hf1] at hrv
          dsimp only at hrv
          match hf2 : findSeg (fun m => m.end_ == e) (ih :: rest) with
          | none => rw [hf2] at hrv; simp at hrv
          | some (mid1, it, post) =>
            rw [hf2] at hrv
            dsimp only at hrv
            simp only [Option.some.injEq] at hrv
            obtain ⟨e1, e2, _⟩ := findSeg_eq hf1
            obtain ⟨f1, f2, _⟩ := findSeg_eq hf2
            have hihb : ih.bgn = b := beq_iff_eq.mp e2
            have hite : it.end_ = e := beq_iff_eq.mp f2
            refine ⟨p2, pre, mid1 ++ [it], post, ih, it, rfl, ?_, ?_, ?_, hihb, hite, ?_, ?_, ?_⟩
            · rw [e1, f1]; simp
            · cases mid1 with
              | nil => simp at f1; simp [f1.1]
              | cons a l =>
                have : ih = a := by simpa using congrArg List.head? f1
                simp [this]
            · exact List.getLast?_concat _
            · rw [← h, ← hrv]
            · rw [← h, ← hrv]
            · rw [← h, ← hrv]
              simp only
              congr 1
              congr 1
              congr 1
              apply List.map_congr_left
              intro m hm
              rw [hihb, hite]
              exact invUpd_eq_mirrorSeg b e m hbe

/-- Structure of a successful `rem` call: the guards passed, the chain after
the splits decomposes as `pre ++ mid ++ post` with `mid` running from the
node beginning at `bgn` to the node ending at `end`, and the call drops
`mid`, shifting `post` down by the region length. -/
theorem rem_success {p p' : ChrmProf} {b e : Int} (h : p.rem b e = some (true, p')) :
    p.isInBounds b e = true ∧ p.isSplitable b e = true ∧
    ∃ p2 pre mid post ih it,
      p.twoSplit b e = some p2 ∧
      p2.mut_ = pre ++ mid ++ post ∧
      mid.head? = some ih ∧ mid.getLast? = some it ∧
      ih.bgn = b ∧ it.end_ = e ∧
      p'.org = p2.org ∧
      p'.chrm = (tri_split_str p2.chrm b e).1 ++ (tri_split_str p2.chrm b e).2.2 ∧
      p'.mut_ = pre ++ post.map (remDown (e - b + 1)) := by
  unfold ChrmProf.rem at h
  split at h
  · simp at h
  · next hg =>
    rw [Bool.or_eq_true, not_or] at hg
    obtain ⟨hg1, hg2⟩ := hg
    rw [Bool.not_eq_true', Bool.not_eq_false] at hg1 hg2
    refine ⟨hg1, hg2, ?_⟩
    match hts : p.twoSplit b e with
    | none => rw [hts] at h; simp at h
    | some p2 =>
      rw [hts] at h
      dsimp only at h
      match hf1 : findSeg (fun m => m.bgn == b) p2.mut_ with
      | none => rw [hf1] at h; simp at h
      | some (pre, head, rest) =>
        rw [hf1] at h
        dsimp only at h
        match hf2 : findSeg (fun m => m.end_ == e) (head :: rest) with
        | none => rw [hf2] at h; simp at h
        | some (mid1, it, post) =>
          rw [hf2] at h
          dsimp only at h
          simp only [Option.some.injEq, Prod.mk.injEq, true_and] at h
          obtain ⟨e1, e2, _⟩ := findSeg_eq hf1
          obtain ⟨f1, f2, _⟩ := findSeg_eq hf2
          have hihb : head.bgn = b := beq_iff_eq.mp e2
          have hite : it.end_ = e := beq_iff_eq.mp f2
          refine ⟨p2, pre, mid1 ++ [it], post, head, it, rfl, ?_, ?_, ?_, hihb, hite, ?_, ?_, ?_⟩
          · rw [e1, f1]; simp
          · cases mid1 with
            | nil => simp at f1; simp [f1.1]
            | cons a l =>
              have : head = a := by simpa using congrArg List.head? f1
              simp [this]
          · exact List.getLast?_concat _
          · rw [← h]
          · rw [← h]
          · rw [← h]

/-- Structure of a successful `amp` call: the guards passed, the chain after
the splits decomposes as `pre ++ mid ++ post` with `mid` running from the
node beginning at `bgn` to the node ending at `end`, and the call splices a
copy of `mid` after the original, the copy and `post` shifted up by the
region length. -/
theorem amp_success {p p' : ChrmProf} {b e : Int} (h : p.amp b e = some (true, p')) :
    p.isInBounds b e = true ∧ p.isSplitable b e = true ∧
    ∃ p2 pre mid post ih it,
      p.twoSplit b e = some p2 ∧
      p2.mut_ = pre ++ mid ++ post ∧
      mid.head? = some ih ∧ mid.getLast? = some it ∧
      ih.bgn = b ∧ it.end_ = e ∧
      p'.org = p2.org ∧
      p'.chrm = (tri_split_str p2.chrm b e).1 ++ (tri_split_str p2.chrm b e).2.1 ++
        (tri_split_str p2.chrm b e).2.1 ++ (tri_split_str p2.chrm b e).2.2 ∧
      p'.mut_ = (pre ++ mid) ++ (mid ++ post).map (ampUp (e - b + 1)) := by
  unfold ChrmProf.amp at h
  split at h
  · simp at h
  · next hg =>
    rw [Bool.or_eq_true, not_or] at hg
    obtain ⟨hg1, hg2⟩ := hg
    rw [Bool.not_eq_true', Bool.not_eq_false] at hg1 hg2
    refine ⟨hg1, hg2, ?_⟩
    match hts : p.twoSplit b e with
    | none => rw [hts] at h; simp at h
    | some p2 =>
      rw [hts] at h
      dsimp only at h
      match hf1 : findSeg (fun m => m.bgn == b) p2.mut_ with
      | none => rw [hf1] at h; simp at h
      | some (pre, head, rest) =>
        rw [hf1] at h
        dsimp only at h
        match hf2 : findSeg (fun m => m.end_ == e) (head :: rest) with
        | none => rw [hf2] at h; simp at h
        | some (mid1, it, post) =>
          rw [hf2] at h
          dsimp only at h
          simp only [Option.some.injEq, Prod.mk.injEq, true_and] at h
          obtain ⟨e1, e2, _⟩ := findSeg_eq hf1
          obtain ⟨f1, f2, _⟩ := findSeg_eq hf2
          have hihb : head.bgn = b := beq_iff_eq.mp e2
          have hite : it.end_ = e := beq_iff_eq.mp f2
          refine ⟨p2, pre, mid1 ++ [it], post, head, it, rfl, ?_, ?_, ?_, hihb, hite, ?_, ?_, ?_⟩
          · rw [e1, f1]; simp
          · cases mid1 with
            | nil => simp at f1; simp [f1.1]
            | cons a l =>
              have : head = a := by simpa using congrArg List.head? f1
              simp [this]
          · exact List.getLast?_concat _
          · rw [← h]
          · rw [← h]
          · rw [← h]

theorem chain_append {c b d : Int} {l1 l2 : List (Int × Int)}
    (h1 : Chain c l1 b) (h2 : Chain b l2 d) : Chain c (l1 ++ l2) d := by
  induction l1 generalizing c with
  | nil => rw [Chain] at h1; subst h1; simpa using h2
  | cons iv l ih =>
    rw [Chain] at h1
    exact ⟨h1.1, ih h1.2⟩

theorem chain_append_elim {c d : Int} {l1 l2 : List (Int × Int)}
    (h : Chain c (l1 ++ l2) d) : ∃ b, Chain c l1 b ∧ Chain b l2 d := by
  induction l1 generalizing c with
  | nil => exact ⟨c, rfl, by simpa using h⟩
  | cons iv l ih =>
    rw [List.cons_append, Chain] at h
    obtain ⟨b, hb1, hb2⟩ := ih h.2
    exact ⟨b, ⟨h.1, hb1⟩, hb2⟩

theorem chain_sum {c d : Int} {l : List (Int × Int)} (h : Chain c l d) :
    ivLenSum l = d - c := by
  induction l generalizing c with
  | nil => rw [Chain] at h; simp [ivLenSum, h]
  | cons iv l ih =>
    rw [Chain] at h
    have := ih h.2
    simp only [ivLenSum, List.map_cons, List.sum_cons] at this ⊢
    omega

theorem chain_shift {c d t : Int} {l : List (Int × Int)} (h : Chain c l d) :
    Chain (c + t) (l.map fun iv => (iv.1 + t, iv.2 + t)) (d + t) := by
  induction l generalizing c with
  | nil => rw [List.map_nil, Chain]; rw [Chain] at h; omega
  | cons iv l ih =>
    rw [Chain] at h
    refine ⟨by simp [h.1], ?_⟩
    have := ih h.2
    simpa [add_right_comm] using this

/-- Reversing a chain and mirroring every interval through the fixed value
`K = c + d - 1` (begin and end swap and reflect) yields a chain tiling the
reflected range. -/
theorem chain_mirror_reverse {K : Int} {c d : Int} {l : List (Int × Int)} (h : Chain c l d) :
    Chain (K - d + 1) ((l.map fun iv => (K - iv.2, K - iv.1)).reverse) (K - c + 1) := by
  induction l generalizing c with
  | nil => rw [List.map_nil, List.reverse_nil, Chain]; rw [Chain] at h; omega
  | cons iv l ih =>
    rw [Chain] at h
    rw [List.map_cons, List.reverse_cons]
    refine chain_append (ih h.2) ?_
    rw [Chain, Chain]
    constructor
    · omega
    · omega

theorem chain_flatMap {α : Type} {ivf : α → Int × Int} {c d : Int} {l : List α}
    {f : α → List α}
    (h : Chain c (l.map ivf) d)
    (hf : ∀ x ∈ l, Chain (ivf x).1 ((f x).map ivf) ((ivf x).2 + 1)) :
    Chain c ((l.flatMap f).map ivf) d := by
  induction l generalizing c with
  | nil => simpa using h
  | cons a l ih =>
    rw [List.map_cons, Chain] at h
    rw [List.flatMap_cons, List.map_append]
    refine chain_append ?_ (ih h.2 fun x hx => hf x (List.mem_cons_of_mem a hx))
    have h1 := hf a (List.mem_cons_self a l)
    rw [h.1] at h1
    exact h1

theorem chain_lower {c d : Int} {l : List (Int × Int)} (h : Chain c l d)
    (hpos : ∀ iv ∈ l, iv.1 ≤ iv.2) : c ≤ d := by
  induction l generalizing c with
  | nil => rw [Chain] at h; omega
  | cons iv l ih =>
    rw [Chain] at h
    have h1 := hpos iv (List.mem_cons_self iv l)
    have h2 := ih h.2 fun z hz => hpos z (List.mem_cons_of_mem iv hz)
    omega

theorem chain_strict {c d : Int} {x : Int × Int} {l : List (Int × Int)}
    (h : Chain c (x :: l) d) (hpos : ∀ iv ∈ x :: l, iv.1 ≤ iv.2) : c < d := by
  rw [Chain] at h
  have h1 := hpos x (List.mem_cons_self x l)
  have h2 := chain_lower h.2 fun z hz => hpos z (List.mem_cons_of_mem x hz)
  omega

/-- In a chain of intervals of positive length, the only interval ending at
`d - 1` is the last one: every earlier interval ends strictly below it. -/
theorem chain_last_unique {c d : Int} {l : List (Int × Int)} (h : Chain c l d)
    (hpos : ∀ iv ∈ l, iv.1 ≤ iv.2) (hne : l ≠ []) :
    ∃ lst pre, l = pre ++ [lst] ∧ lst.2 = d - 1 ∧ ∀ z ∈ pre, z.2 < d - 1 := by
  induction l generalizing c with
  | nil => exact absurd rfl hne
  | cons iv l ih =>
    cases l with
    | nil =>
      rw [Chain, Chain] at h
      exact ⟨iv, [], by simp, by omega, by simp⟩
    | cons iv2 l2 =>
      rw [Chain] at h
      obtain ⟨lst, pre, hp1, hp2, hp3⟩ :=
        ih h.2 (fun z hz => hpos z (List.mem_cons_of_mem iv hz)) (by simp)
      refine ⟨lst, iv :: pre, by simp [hp1], hp2, ?_⟩
      intro z hz
      rcases List.mem_cons.mp hz with hz | hz
      · rw [hz]
        have hlt := chain_strict h.2 fun w hw => hpos w (List.mem_cons_of_mem iv hw)
        omega
      · exact hp3 z hz

theorem create_inv (s : List Char) : ProfInv s (ChrmProf.create s) := by
  constructor
  case orgChain => simp [ChrmProf.create, OrgSeg.iv, Chain]
  case mutChain => simp [ChrmProf.create, MutSeg.iv, Chain]
  case parentLen => simp [ChrmProf.create]
  case parentMem => simp [ChrmProf.create]
  case orgLen0 =>
    intro o ho
    simp [ChrmProf.create] at ho
    subst ho
    simp
  case mutLen0 =>
    intro m hm
    simp [ChrmProf.create] at hm
    subst hm
    simp
  case mutLenPos =>
    intro hne m hm
    simp [ChrmProf.create] at hm hne
    subst hm
    have : 1 ≤ s.length := by
      cases s with
      | nil => simp [ChrmProf.create] at hne
      | cons a t => simp
    simp
    omega

theorem splitAtPos_inv {s : List Char} {p p2 : ChrmProf} {k : Int}
    (hp : ProfInv s p) (h : p.splitAtPos k = some p2) : ProfInv s p2 := by
  unfold ChrmProf.splitAtPos at h
  split at h
  · simp at h; subst h; exact hp
  · match hf : findSeg (fun m => m.bgn ≤ k && k ≤ m.end_) p.mut_ with
    | none => rw [hf] at h; simp at h
    | some (pre0, sm, post0) =>
      rw [hf] at h
      dsimp only at h
      split at h
      · simp at h; subst h; exact hp
      · next hne =>
        simp only [Option.some.injEq] at h
        subst h
        obtain ⟨hdec, hpred, _⟩ := findSeg_eq hf
        have hsm : sm ∈ p.mut_ := by rw [hdec]; simp
        have hk : sm.bgn ≤ k ∧ k ≤ sm.end_ := by
          have := hpred
          simp only [Bool.and_eq_true, decide_eq_true_eq] at this
          exact this
        rw [not_or] at hne
        have hoff1 : 1 ≤ k - sm.bgn := by
          have := hne.1
          omega
        have hoff2 : k - sm.bgn ≤ sm.end_ - sm.bgn - 1 := by
          have := hne.2
          omega
        have hsmlen := hp.parentLen sm hsm
        constructor
        case orgChain =>
          simp only
          refine chain_flatMap hp.orgChain ?_
          intro o ho
          split
          · next heq =>
            simp only [OrgSeg.split, List.map_cons, List.map_nil, OrgSeg.iv, Chain,
              true_and, and_true]
            omega
          · simp [OrgSeg.iv, Chain]
        case mutChain =>
          simp only
          refine chain_flatMap hp.mutChain ?_
          intro m hm
          split
          · next heq =>
            simp only [MutSeg.split, List.map_cons, List.map_nil, MutSeg.iv, Chain,
              true_and, and_true]
            omega
          · simp [MutSeg.iv, Chain]
        case parentLen =>
          intro m hm
          simp only at hm
          rw [List.mem_flatMap] at hm
          obtain ⟨m0, hm0, hmem⟩ := hm
          by_cases hc : m0.pbgn = sm.pbgn ∧ m0.pend = sm.pend
          · rw [if_pos hc] at hmem
            have hl0 := hp.parentLen m0 hm0
            simp only [MutSeg.split, List.mem_cons, List.not_mem_nil, or_false] at hmem
            rcases hmem with hmem | hmem <;> subst hmem <;> simp <;> omega
          · rw [if_neg hc] at hmem
            simp only [List.mem_singleton] at hmem
            subst hmem
            exact hp.parentLen m hm0
        case parentMem =>
          intro m hm
          simp only at hm ⊢
          rw [List.mem_flatMap] at hm
          obtain ⟨m0, hm0, hmem⟩ := hm
          rw [List.mem_flatMap]
          by_cases hc : m0.pbgn = sm.pbgn ∧ m0.pend = sm.pend
          · rw [if_pos hc] at hmem
            refine ⟨⟨sm.pbgn, sm.pend⟩, ?_, ?_⟩
            · have := hp.parentMem m0 hm0
              rw [hc.1, hc.2] at this
              exact this
            · rw [if_pos ⟨rfl, rfl⟩]
              simp only [MutSeg.split, OrgSeg.split, List.mem_cons, List.not_mem_nil, or_false]
                at hmem ⊢
              rcases hmem with hmem | hmem <;> subst hmem <;> simp <;> omega
          · rw [if_neg hc] at hmem
            simp only [List.mem_singleton] at hmem
            subst hmem
            refine ⟨⟨m.pbgn, m.pend⟩, hp.parentMem m hm0, ?_⟩
            rw [if_neg (by simpa using hc)]
            simp
        case orgLen0 =>
          intro o ho
          simp only at ho
          rw [List.mem_flatMap] at ho
          obtain ⟨o0, ho0, hmem⟩ := ho
          by_cases hc : o0.bgn = sm.pbgn ∧ o0.end_ = sm.pend
          · rw [if_pos hc] at hmem
            simp only [OrgSeg.split, List.mem_cons, List.not_mem_nil, or_false] at hmem
            rcases hmem with hmem | hmem <;> subst hmem <;> simp <;> omega
          · rw [if_neg hc] at hmem
            simp only [List.mem_singleton] at hmem
            subst hmem
            exact hp.orgLen0 o ho0
        case mutLen0 =>
          intro m hm
          simp only at hm
          rw [List.mem_flatMap] at hm
          obtain ⟨m0, hm0, hmem⟩ := hm
          by_cases hc : m0.pbgn = sm.pbgn ∧ m0.pend = sm.pend
          · rw [if_pos hc] at hmem
            have hl0 := hp.parentLen m0 hm0
            simp only [MutSeg.split, List.mem_cons, List.not_mem_nil, or_false] at hmem
            rcases hmem with hmem | hmem <;> subst hmem <;> simp <;> omega
          · rw [if_neg hc] at hmem
            simp only [List.mem_singleton] at hmem
            subst hmem
            exact hp.mutLen0 m hm0
        case mutLenPos =>
          intro hch m hm
          simp only at hm hch
          rw [List.mem_flatMap] at hm
          obtain ⟨m0, hm0, hmem⟩ := hm
          by_cases hc : m0.pbgn = sm.pbgn ∧ m0.pend = sm.pend
          · rw [if_pos hc] at hmem
            have hl0 := hp.parentLen m0 hm0
            simp only [MutSeg.split, List.mem_cons, List.not_mem_nil, or_false] at hmem
            rcases hmem with hmem | hmem <;> subst hmem <;> simp <;> omega
          · rw [if_neg hc] at hmem
            simp only [List.mem_singleton] at hmem
            subst hmem
            exact hp.mutLenPos hch m hm0

theorem twoSplit_inv {s : List Char} {p p2 : ChrmProf} {b e : Int}
    (hp : ProfInv s p) (h : p.twoSplit b e = some p2) : ProfInv s p2 := by
  unfold ChrmProf.twoSplit at h
  match h1 : (if b > 0 then p.splitAtPos b else some p) with
  | none => rw [h1] at h; simp at h
  | some p1 =>
    rw [h1] at h
    dsimp only at h
    have hp1 : ProfInv s p1 := by
      split at h1
      · exact splitAtPos_inv hp h1
      · simp at h1; subst h1; exact hp
    split at h
    · exact splitAtPos_inv hp1 h
    · simp at h; subst h; exact hp1

/-- An operator that returns `False` left the state unchanged (`inv`). -/
theorem inv_false {p p' : ChrmProf} {b e : Int} (h : p.inv b e = some (false, p')) :
    p' = p := by
  unfold ChrmProf.inv at h
  split at h
  · simp at h; exact h.symm
  · match hts : p.twoSplit b e with
    | none => rw [hts] at h; simp at h
    | some p2 =>
      rw [hts] at h
      dsimp only at h
      match hrv : p2.revMut b e with
      | none => rw [hrv] at h; simp at h
      | some p3 => rw [hrv] at h; simp at h

/-- An operator that returns `False` left the state unchanged (`rem`). -/
theorem rem_false {p p' : ChrmProf} {b e : Int} (h : p.rem b e = some (false, p')) :
    p' = p := by
  unfold ChrmProf.rem at h
  split at h
  · simp at h; exact h.symm
  · match hts : p.twoSplit b e with
    | none => rw [hts] at h; simp at h
    | some p2 =>
      rw [hts] at h
      dsimp only at h
      match hf1 : findSeg (fun m => m.bgn == b) p2.mut_ with
      | none => rw [hf1] at h; simp at h
      | some (pre, head, rest) =>
        rw [hf1] at h
        dsimp only at h
        match hf2 : findSeg (fun m => m.end_ == e) (head :: rest) with
        | none => rw [hf2] at h; simp at h
        | some (mid1, it, post) => rw [hf2] at h; simp at h

/-- An operator that returns `False` left the state unchanged (`amp`). -/
theorem amp_false {p p' : ChrmProf} {b e : Int} (h : p.amp b e = some (false, p')) :
    p' = p := by
  unfold ChrmProf.amp at h
  split at h
  · simp at h; exact h.symm
  · match hts : p.twoSplit b e with
    | none => rw [hts] at h; simp at h
    | some p2 =>
      rw [hts] at h
      dsimp only at h
      match hf1 : findSeg (fun m => m.bgn == b) p2.mut_ with
      | none => rw [hf1] at h; simp at h
      | some (pre, head, rest) =>
        rw [hf1] at h
        dsimp only at h
        match hf2 : findSeg (fun m => m.end_ == e) (head :: rest) with
        | none => rw [hf2] at h; simp at h
        | some (mid1, it, post) => rw [hf2] at h; simp at h

/-- Lengths of the three slices of `tri_split_str` under the operator
bounds. -/
theorem tri_split_len {s : List Char} {b e : Int} (h0 : 0 ≤ b) (h1 : b ≤ e)
    (h2 : e < (s.length : Int)) :
    ((tri_split_str s b e).1.length : Int) = b ∧
    ((tri_split_str s b e).2.1.length : Int) = e - b + 1 ∧
    ((tri_split_str s b e).2.2.length : Int) = (s.length : Int) - e - 1 := by
  unfold tri_split_str
  simp only [List.length_take, List.length_drop]
  omega

/-- From the decomposition delivered by a success lemma, the three chain
pieces tile `[0, b)`, `[b, e]` and `(e, M)`. -/
theorem chain_mid_bounds {mutl pre mid post : List MutSeg} {ih it : MutSeg} {b e M : Int}
    (hdec : mutl = pre ++ mid ++ post)
    (hch : Chain 0 (mutl.map MutSeg.iv) M)
    (hhead : mid.head? = some ih) (hlast : mid.getLast? = some it)
    (hihb : ih.bgn = b) (hite : it.end_ = e) :
    Chain 0 (pre.map MutSeg.iv) b ∧ Chain b (mid.map MutSeg.iv) (e + 1) ∧
      Chain (e + 1) (post.map MutSeg.iv) M := by
  subst hdec
  rw [List.map_append, List.map_append] at hch
  obtain ⟨c1, hc1, hc23⟩ := chain_append_elim (by simpa using hch)
  obtain ⟨c2, hc2, hc3⟩ := chain_append_elim hc23
  obtain ⟨l0, hl0⟩ := List.getLast?_eq_some_iff.mp hlast
  have hc1b : c1 = b := by
    cases mid with
    | nil => simp at hhead
    | cons a tl =>
      have ha : a = ih := by simpa using hhead
      subst ha
      rw [List.map_cons, Chain] at hc2
      rw [← hihb, ← hc2.1]
      rfl
  have hc2e : c2 = e + 1 := by
    rw [hl0] at hc2
    rw [List.map_append] at hc2
    obtain ⟨x, hx1, hx2⟩ := chain_append_elim hc2
    rw [List.map_cons, List.map_nil, Chain, Chain] at hx2
    rw [← hx2.2]
    show it.end_ + 1 = e + 1
    rw [hite]
  subst hc1b hc2e
  exact ⟨hc1, hc2, hc3⟩

/-- The mutated-chain region reversed under the mirror law tiles the same
range `[b, e]`. -/
theorem chain_mirror_mutseg {b e : Int} {mid : List MutSeg}
    (h : Chain b (mid.map MutSeg.iv) (e + 1)) :
    Chain b (((mid.map (mirrorSeg b e)).reverse).map MutSeg.iv) (e + 1) := by
  have h2 := chain_mirror_reverse (K := b + e) h
  have e1 : b + e - (e + 1) + 1 = b := by ring
  have e2 : b + e - b + 1 = e + 1 := by ring
  rw [e1, e2] at h2
  have e3 : ((mid.map (mirrorSeg b e)).reverse).map MutSeg.iv =
      ((mid.map MutSeg.iv).map fun q => (b + e - q.2, b + e - q.1)).reverse := by
    rw [List.map_reverse, List.map_map, List.map_map]
    rfl
  rw [e3]
  exact h2

theorem inv_pres {s : List Char} {p p' : ChrmProf} {b e : Int} {r : Bool}
    (hp : ProfInv s p) (h : p.inv b e = some (r, p')) : ProfInv s p' := by
  cases r with
  | false => rw [inv_false h]; exact hp
  | true =>
    obtain ⟨hg1, hg2, p2, pre, mid, post, ih, it, hts, hdec, hhead, hlast, hihb, hite,
      horg, hchrm, hmut⟩ := inv_success h
    obtain ⟨hb0, hbe, heM⟩ := isInBounds_spec hg1
    have hp2 := twoSplit_inv hp hts
    have hch2 : p2.chrm = p.chrm := twoSplit_chrm hts
    have heM2 : e < (p2.chrm.length : Int) := by rw [hch2]; exact heM
    obtain ⟨hcpre, hcmid, hcpost⟩ :=
      chain_mid_bounds hdec hp2.mutChain hhead hlast hihb hite
    obtain ⟨ht1, ht2, ht3⟩ := tri_split_len (s := p2.chrm) hb0 hbe heM2
    have hlen' : (p'.chrm.length : Int) = (p2.chrm.length : Int) := by
      rw [hchrm]
      simp only [List.length_append, List.length_reverse]
      push_cast
      omega
    have hsub : ∀ x : MutSeg, x ∈ pre ∨ x ∈ mid ∨ x ∈ post → x ∈ p2.mut_ := by
      intro x hx
      rw [hdec]
      simp only [List.mem_append]
      tauto
    have hne2 : p2.chrm ≠ [] := by
      intro hnil
      rw [hnil] at heM2
      simp at heM2
      omega
    have hpos2 := hp2.mutLenPos hne2
    have hmem' : ∀ m' ∈ p'.mut_,
        (m' ∈ p2.mut_) ∨ ∃ m0 ∈ p2.mut_, m' = mirrorSeg b e m0 := by
      intro m' hm'
      rw [hmut] at hm'
      simp only [List.mem_append, List.mem_reverse, List.mem_map] at hm'
      rcases hm' with (hm' | ⟨m0, hm0, hq⟩) | hm'
      · exact Or.inl (hsub _ (Or.inl hm'))
      · exact Or.inr ⟨m0, hsub _ (Or.inr (Or.inl hm0)), hq.symm⟩
      · exact Or.inl (hsub _ (Or.inr (Or.inr hm')))
    constructor
    case orgChain => rw [horg]; exact hp2.orgChain
    case mutChain =>
      have hgoal : Chain 0 (p'.mut_.map MutSeg.iv) (p2.chrm.length : Int) := by
        rw [hmut, List.map_append, List.map_append]
        exact chain_append (chain_append hcpre (chain_mirror_mutseg hcmid)) hcpost
      rw [show ((p'.chrm.length : Int)) = ((p2.chrm.length : Int)) from hlen']
      exact hgoal
    case parentLen =>
      intro m' hm'
      rcases hmem' m' hm' with hm2 | ⟨m0, hm0, hq⟩
      · exact hp2.parentLen m' hm2
      · have := hp2.parentLen m0 hm0
        subst hq
        simp only [mirrorSeg]
        omega
    case parentMem =>
      intro m' hm'
      rw [horg]
      rcases hmem' m' hm' with hm2 | ⟨m0, hm0, hq⟩
      · exact hp2.parentMem m' hm2
      · have := hp2.parentMem m0 hm0
        subst hq
        simpa [mirrorSeg] using this
    case orgLen0 =>
      intro o ho
      rw [horg] at ho
      exact hp2.orgLen0 o ho
    case mutLen0 =>
      intro m' hm'
      rcases hmem' m' hm' with hm2 | ⟨m0, hm0, hq⟩
      · exact hp2.mutLen0 m' hm2
      · have := hpos2 m0 hm0
        subst hq
        simp only [mirrorSeg]
        omega
    case mutLenPos =>
      intro _ m' hm'
      rcases hmem' m' hm' with hm2 | ⟨m0, hm0, hq⟩
      · exact hpos2 m' hm2
      · have := hpos2 m0 hm0
        subst hq
        simp only [mirrorSeg]
        omega

theorem rem_pres {s : List Char} {p p' : ChrmProf} {b e : Int} {r : Bool}
    (hp : ProfInv s p) (h : p.rem b e = some (r, p')) : ProfInv s p' := by
  cases r with
  | false => rw [rem_false h]; exact hp
  | true =>
    obtain ⟨hg1, hg2, p2, pre, mid, post, ih, it, hts, hdec, hhead, hlast, hihb, hite,
      horg, hchrm, hmut⟩ := rem_success h
    obtain ⟨hb0, hbe, heM⟩ := isInBounds_spec hg1
    have hp2 := twoSplit_inv hp hts
    have hch2 : p2.chrm = p.chrm := twoSplit_chrm hts
    have heM2 : e < (p2.chrm.length : Int) := by rw [hch2]; exact heM
    obtain ⟨hcpre, hcmid, hcpost⟩ :=
      chain_mid_bounds hdec hp2.mutChain hhead hlast hihb hite
    obtain ⟨ht1, ht2, ht3⟩ := tri_split_len (s := p2.chrm) hb0 hbe heM2
    have hlen' : (p'.chrm.length : Int) = (p2.chrm.length : Int) - (e - b + 1) := by
      rw [hchrm]
      simp only [List.length_append]
      push_cast
      omega
    have hsub : ∀ x : MutSeg, x ∈ pre ∨ x ∈ mid ∨ x ∈ post → x ∈ p2.mut_ := by
      intro x hx
      rw [hdec]
      simp only [List.mem_append]
      tauto
    have hne2 : p2.chrm ≠ [] := by
      intro hnil
      rw [hnil] at heM2
      simp at heM2
      omega
    have hpos2 := hp2.mutLenPos hne2
    have hmem' : ∀ m' ∈ p'.mut_,
        (m' ∈ p2.mut_) ∨ ∃ m0 ∈ p2.mut_, m' = remDown (e - b + 1) m0 := by
      intro m' hm'
      rw [hmut] at hm'
      simp only [List.mem_append, List.mem_map] at hm'
      rcases hm' with hm' | ⟨m0, hm0, hq⟩
      · exact Or.inl (hsub _ (Or.inl hm'))
      · exact Or.inr ⟨m0, hsub _ (Or.inr (Or.inr hm0)), hq.symm⟩
    constructor
    case orgChain => rw [horg]; exact hp2.orgChain
    case mutChain =>
      have e3 : (post.map (remDown (e - b + 1))).map MutSeg.iv
          = (post.map MutSeg.iv).map fun q => (q.1 + -(e - b + 1), q.2 + -(e - b + 1)) := by
        rw [List.map_map, List.map_map]
        apply List.map_congr_left
        intro m hm
        simp only [Function.comp_apply, remDown, MutSeg.iv, Prod.mk.injEq]
        constructor <;> ring
      have hshift := chain_shift (t := -(e - b + 1)) hcpost
      have e4 : e + 1 + -(e - b + 1) = b := by ring
      rw [e4] at hshift
      have hgoal : Chain 0 (p'.mut_.map MutSeg.iv)
          ((p2.chrm.length : Int) + -(e - b + 1)) := by
        rw [hmut, List.map_append, e3]
        exact chain_append hcpre hshift
      rw [show ((p'.chrm.length : Int)) = ((p2.chrm.length : Int)) + -(e - b + 1) by omega]
      exact hgoal
    case parentLen =>
      intro m' hm'
      rcases hmem' m' hm' with hm2 | ⟨m0, hm0, hq⟩
      · exact hp2.parentLen m' hm2
      · have := hp2.parentLen m0 hm0
        subst hq
        simp only [remDown]
        omega
    case parentMem =>
      intro m' hm'
      rw [horg]
      rcases hmem' m' hm' with hm2 | ⟨m0, hm0, hq⟩
      · exact hp2.parentMem m' hm2
      · have := hp2.parentMem m0 hm0
        subst hq
        simpa [remDown] using this
    case orgLen0 =>
      intro o ho
      rw [horg] at ho
      exact hp2.orgLen0 o ho
    case mutLen0 =>
      intro m' hm'
      rcases hmem' m' hm' with hm2 | ⟨m0, hm0, hq⟩
      · exact hp2.mutLen0 m' hm2
      · have := hpos2 m0 hm0
        subst hq
        simp only [remDown]
        omega
    case mutLenPos =>
      intro _ m' hm'
      rcases hmem' m' hm' with hm2 | ⟨m0, hm0, hq⟩
      · exact hpos2 m' hm2
      · have := hpos2 m0 hm0
        subst hq
        simp only [remDown]
        omega

theorem amp_pres {s : List Char} {p p' : ChrmProf} {b e : Int} {r : Bool}
    (hp : ProfInv s p) (h : p.amp b e = some (r, p')) : ProfInv s p' := by
  cases r with
  | false => rw [amp_false h]; exact hp
  | true =>
    obtain ⟨hg1, hg2, p2, pre, mid, post, ih, it, hts, hdec, hhead, hlast, hihb, hite,
      horg, hchrm, hmut⟩ := amp_success h
    obtain ⟨hb0, hbe, heM⟩ := isInBounds_spec hg1
    have hp2 := twoSplit_inv hp hts
    have hch2 : p2.chrm = p.chrm := twoSplit_chrm hts
    have heM2 : e < (p2.chrm.length : Int) := by rw [hch2]; exact heM
    obtain ⟨hcpre, hcmid, hcpost⟩ :=
      chain_mid_bounds hdec hp2.mutChain hhead hlast hihb hite
    obtain ⟨ht1, ht2, ht3⟩ := tri_split_len (s := p2.chrm) hb0 hbe heM2
    have hlen' : (p'.chrm.length : Int) = (p2.chrm.length : Int) + (e - b + 1) := by
      rw [hchrm]
      simp only [List.length_append]
      push_cast
      omega
    have hsub : ∀ x : MutSeg, x ∈ pre ∨ x ∈ mid ∨ x ∈ post → x ∈ p2.mut_ := by
      intro x hx
      rw [hdec]
      simp only [List.mem_append]
      tauto
    have hne2 : p2.chrm ≠ [] := by
      intro hnil
      rw [hnil] at heM2
      simp at heM2
      omega
    have hpos2 := hp2.mutLenPos hne2
    have hmem' : ∀ m' ∈ p'.mut_,
        (m' ∈ p2.mut_) ∨ ∃ m0 ∈ p2.mut_, m' = ampUp (e - b + 1) m0 := by
      intro m' hm'
      rw [hmut] at hm'
      simp only [List.mem_append, List.mem_map] at hm'
      rcases hm' with (hm' | hm') | ⟨m0, hm0, hq⟩
      · exact Or.inl (hsub _ (Or.inl hm'))
      · exact Or.inl (hsub _ (Or.inr (Or.inl hm')))
      · rcases hm0 with hm0 | hm0
        · exact Or.inr ⟨m0, hsub _ (Or.inr (Or.inl hm0)), hq.symm⟩
        · exact Or.inr ⟨m0, hsub _ (Or.inr (Or.inr hm0)), hq.symm⟩
    constructor
    case orgChain => rw [horg]; exact hp2.orgChain
    case mutChain =>
      have e3 : ((mid ++ post).map (ampUp (e - b + 1))).map MutSeg.iv
          = ((mid ++ post).map MutSeg.iv).map fun q => (q.1 + (e - b + 1), q.2 + (e - b + 1)) := by
        rw [List.map_map, List.map_map]
        apply List.map_congr_left
        intro m hm
        simp only [Function.comp_apply, ampUp, MutSeg.iv]
      have hcmidpost : Chain b ((mid ++ post).map MutSeg.iv) (p2.chrm.length : Int) := by
        rw [List.map_append]
        exact chain_append hcmid hcpost
      have hshift := chain_shift (t := e - b + 1) hcmidpost
      have e4 : b + (e - b + 1) = e + 1 := by ring
      rw [e4] at hshift
      have hpremid : Chain 0 ((pre ++ mid).map MutSeg.iv) (e + 1) := by
        rw [List.map_append]
        exact chain_append hcpre hcmid
      have hgoal : Chain 0 (p'.mut_.map MutSeg.iv)
          ((p2.chrm.length : Int) + (e - b + 1)) := by
        rw [hmut, List.map_append, e3]
        exact chain_append hpremid hshift
      rw [show ((p'.chrm.length : Int)) = ((p2.chrm.length : Int)) + (e - b + 1) by omega]
      exact hgoal
    case parentLen =>
      intro m' hm'
      rcases hmem' m' hm' with hm2 | ⟨m0, hm0, hq⟩
      · exact hp2.parentLen m' hm2
      · have := hp2.parentLen m0 hm0
        subst hq
        simp only [ampUp]
        omega
    case parentMem =>
      intro m' hm'
      rw [horg]
      rcases hmem' m' hm' with hm2 | ⟨m0, hm0, hq⟩
      · exact hp2.parentMem m' hm2
      · have := hp2.parentMem m0 hm0
        subst hq
        simpa [ampUp] using this
    case orgLen0 =>
      intro o ho
      rw [horg] at ho
      exact hp2.orgLen0 o ho
    case mutLen0 =>
      intro m' hm'
      rcases hmem' m' hm' with hm2 | ⟨m0, hm0, hq⟩
      · exact hp2.mutLen0 m' hm2
      · have := hpos2 m0 hm0
        subst hq
        simp only [ampUp]
        omega
    case mutLenPos =>
      intro _ m' hm'
      rcases hmem' m' hm' with hm2 | ⟨m0, hm0, hq⟩
      · exact hpos2 m' hm2
      · have := hpos2 m0 hm0
        subst hq
        simp only [ampUp]
        omega

theorem reachable_inv {s : List Char} {p : ChrmProf} (h : Reachable s p) : ProfInv s p := by
  induction h with
  | init => exact create_inv s
  | invStep _ hstep ihp => exact inv_pres ihp hstep
  | remStep _ hstep ihp => exact rem_pres ihp hstep
  | ampStep _ hstep ihp => exact amp_pres ihp hstep

/-! ## Dictionary lemmas for the breakpoint records -/

theorem dFind_dSet_self (l : SvDict) (k : Int × Bool) (v : SvRec) :
    dFind (dSet l k v) k = some v := by
  induction l with
  | nil => simp [dSet, dFind]
  | cons kv rest ih =>
    by_cases hk : kv.1 = k
    · simp [dSet, hk, dFind]
    · simp [dSet, dFind, hk, ih]

theorem dFind_dSet_ne (l : SvDict) (k k' : Int × Bool) (v : SvRec) (h : k' ≠ k) :
    dFind (dSet l k v) k' = dFind l k' := by
  induction l with
  | nil => simp [dSet, dFind, Ne.symm h]
  | cons kv rest ih =>
    by_cases hk : kv.1 = k
    · simp [dSet, dFind, hk, Ne.symm h]
    · by_cases hk' : kv.1 = k'
      · simp [dSet, dFind, hk, hk', h]
      · simp [dSet, dFind, hk, hk', h, ih]

theorem dFind_dUpdate_self (l : SvDict) (k : Int × Bool) (f : SvRec → SvRec) :
    dFind (dUpdate l k f) k = (dFind l k).map f := by
  unfold dUpdate
  match hl : dFind l k with
  | none => simp [hl]
  | some r => simp [hl, dFind_dSet_self]

theorem dFind_dUpdate_ne (l : SvDict) (k k' : Int × Bool) (f : SvRec → SvRec) (h : k' ≠ k) :
    dFind (dUpdate l k f) k' = dFind l k' := by
  unfold dUpdate
  match hl : dFind l k with
  | none => rfl
  | some r => exact dFind_dSet_ne l k k' (f r) h

/-- Every record of the filtered dict returned by `get_sv_read_nums` has a
mate. -/
theorem dFind_filter_mate {l : SvDict} {k : Int × Bool} {r : SvRec}
    (h : dFind (l.filter fun kv => kv.2.mate.isSome) k = some r) :
    r.mate.isSome = true := by
  induction l with
  | nil => simp [dFind] at h
  | cons kv rest ih =>
    rw [List.filter_cons] at h
    by_cases hp : kv.2.mate.isSome
    · rw [if_pos (by simpa using hp)] at h
      unfold dFind at h
      split at h
      · simp only [Option.some.injEq] at h
        subst h
        exact hp
      · exact ih h
    · rw [if_neg (by simpa using hp)] at h
      exact ih h

/-- Claim C2 (corrected): when `_add_sv_to_dict` records a breakpoint
crossing whose mate is not adjacent in original coordinates, the
*breakpoint's own* record gets `total_reads` and `mated_reads` incremented
and its `mate` link set, and the mate's record gets the reciprocal `mate`
link — but the mate's counters, including `mated_reads`, are left unchanged
(the claim's "incremented on both" does not hold; only the link is stored on
both). -/
theorem claim_C2_mated_reads_only_on_breakpoint (svs : SvDict) (ml : List MutSeg)
    (i : Nat) (isBgn : Bool) (cur : MutSeg) (mp : Int) (mleft : Bool)
    (hcur : ml.get? i = some cur)
    (hm : getMatedPos ml i isBgn = some (mp, mleft, false))
    (hne : getCurPos cur isBgn ≠ (mp, mleft)) :
    dFind (addSv svs ml i isBgn) (getCurPos cur isBgn) =
      some ⟨(recGetD svs (getCurPos cur isBgn)).total_reads + 1,
            (recGetD svs (getCurPos cur isBgn)).mated_reads + 1,
            some (mp, mleft)⟩ ∧
    dFind (addSv svs ml i isBgn) (mp, mleft) =
      some ⟨(recGetD svs (mp, mleft)).total_reads,
            (recGetD svs (mp, mleft)).mated_reads,
            some (getCurPos cur isBgn)⟩ := by
  have hnes : (mp, mleft) ≠ getCurPos cur isBgn := Ne.symm hne
  unfold addSv
  rw [hcur, hm]
  dsimp only
  set ct := getCurPos cur isBgn with hct
  set svs1 := if (dFind svs ct).isNone then dSet svs ct ⟨0, 0, none⟩ else svs with hsvs1
  set svs2 := if (dFind svs1 (mp, mleft)).isNone then dSet svs1 (mp, mleft) ⟨0, 0, none⟩
    else svs1 with hsvs2
  have hA : dFind svs1 ct = some (recGetD svs ct) := by
    rw [hsvs1]
    by_cases hc : (dFind svs ct).isNone
    · rw [if_pos hc, dFind_dSet_self]
      unfold recGetD
      rw [Option.isNone_iff_eq_none.mp hc]
      rfl
    · rw [if_neg hc]
      unfold recGetD
      match hx : dFind svs ct with
      | none => rw [hx] at hc; simp at hc
      | some r => rfl
  have hB : dFind svs1 (mp, mleft) = dFind svs (mp, mleft) := by
    rw [hsvs1]
    by_cases hc : (dFind svs ct).isNone
    · rw [if_pos hc, dFind_dSet_ne _ _ _ _ hnes]
    · rw [if_neg hc]
  have hC : dFind svs2 (mp, mleft) = some (recGetD svs (mp, mleft)) := by
    rw [hsvs2]
    by_cases hc : (dFind svs1 (mp, mleft)).isNone
    · rw [if_pos hc, dFind_dSet_self]
      unfold recGetD
      rw [hB] at hc
      rw [Option.isNone_iff_eq_none.mp hc]
      rfl
    · rw [if_neg hc]
      rw [hB] at hc ⊢
      unfold recGetD
      match hx : dFind svs (mp, mleft) with
      | none => rw [hx] at hc; simp at hc
      | some r => rfl
  have hD : dFind svs2 ct = some (recGetD svs ct) := by
    rw [hsvs2]
    by_cases hc : (dFind svs1 (mp, mleft)).isNone
    · rw [if_pos hc, dFind_dSet_ne _ _ _ _ hne, hA]
    · rw [if_neg hc, hA]
  simp only [Bool.false_eq_true, if_false]
  constructor
  · rw [dFind_dUpdate_ne _ _ _ _ hne, dFind_dUpdate_self, dFind_dUpdate_self, hD]
    rfl
  · rw [dFind_dUpdate_self, dFind_dUpdate_ne _ _ _ _ hnes, dFind_dUpdate_ne _ _ _ _ hnes, hC]
    rfl

/-- Segments of a chained region lie inside the region's bounds. -/
theorem chain_mem_bounds {c d : Int} {l : List MutSeg}
    (h : Chain c (l.map MutSeg.iv) d) (hpos : ∀ m ∈ l, m.bgn ≤ m.end_) :
    ∀ m ∈ l, c ≤ m.bgn ∧ m.end_ ≤ d - 1 := by
  induction l generalizing c with
  | nil => simp
  | cons a t ih =>
    rw [List.map_cons, Chain] at h
    have hpt : ∀ m ∈ t, m.bgn ≤ m.end_ := fun m hm => hpos m (List.mem_cons_of_mem a hm)
    have hppairs : ∀ q ∈ t.map MutSeg.iv, q.1 ≤ q.2 := by
      intro q hq
      obtain ⟨m, hm, hqe⟩ := List.mem_map.mp hq
      rw [← hqe]
      exact hpt m hm
    have ha := hpos a (List.mem_cons_self a t)
    have hc : a.bgn = c := h.1
    have hlow : a.end_ + 1 ≤ d := chain_lower h.2 hppairs
    have hiv : a.iv.2 = a.end_ := rfl
    intro m hm
    rcases List.mem_cons.mp hm with hm | hm
    · subst hm
      omega
    · have := ih h.2 hpt m hm
      omega

/-- In a chain of positive-length segments, the scan for the segment ending
at `M - 1` finds the last segment, leaving nothing after it. -/
theorem findSeg_last_end {c M : Int} {l : List MutSeg}
    (hch : Chain c (l.map MutSeg.iv) M) (hpos : ∀ m ∈ l, m.bgn ≤ m.end_) (hne : l ≠ []) :
    ∃ pre lst, l = pre ++ [lst] ∧ lst.end_ = M - 1 ∧
      findSeg (fun m => m.end_ == (M - 1)) l = some (pre, lst, []) := by
  induction l generalizing c with
  | nil => exact absurd rfl hne
  | cons a t ih =>
    rw [List.map_cons, Chain] at hch
    cases t with
    | nil =>
      rw [List.map_nil, Chain] at hch
      have hend : a.end_ = M - 1 := by
        have := hch.2
        change a.end_ + 1 = M at this
        omega
      refine ⟨[], a, by simp, hend, ?_⟩
      rw [findSeg, if_pos (by simpa using hend)]
    | cons b2 t2 =>
      have hpt : ∀ m ∈ b2 :: t2, m.bgn ≤ m.end_ :=
        fun m hm => hpos m (List.mem_cons_of_mem a hm)
      have hppairs : ∀ q ∈ (b2 :: t2).map MutSeg.iv, q.1 ≤ q.2 := by
        intro q hq
        obtain ⟨m, hm, hqe⟩ := List.mem_map.mp hq
        rw [← hqe]
        exact hpt m hm
      have hstrict : a.end_ + 1 < M := by
        have := chain_strict (x := MutSeg.iv b2) (l := t2.map MutSeg.iv) (by simpa using hch.2)
          (by simpa using hppairs)
        exact this
      obtain ⟨pre, lst, hdec, hend, hfind⟩ := ih hch.2 hpt (by simp)
      refine ⟨a :: pre, lst, by simp [hdec], hend, ?_⟩
      rw [findSeg, if_neg (by simp; omega), hfind]

/-- On an empty live sequence every operator is rejected. -/
theorem ops_on_empty (q : ChrmProf) (hq : q.chrm = []) (b e : Int) :
    q.inv b e = some (false, q) ∧ q.rem b e = some (false, q) ∧
      q.amp b e = some (false, q) := by
  have hib : q.isInBounds b e = false := by
    unfold ChrmProf.isInBounds
    rw [hq]
    simp only [List.length_nil, Nat.cast_zero, Bool.not_eq_false', Bool.or_eq_true,
      decide_eq_true_eq]
    omega
  refine ⟨?_, ?_, ?_⟩
  · unfold ChrmProf.inv
    rw [hib]
    simp
  · unfold ChrmProf.rem
    rw [hib]
    simp
  · unfold ChrmProf.amp
    rw [hib]
    simp

/-- Full deletion: on any reachable profile with a nonempty live sequence,
`rem 0 (M-1)` succeeds and empties the sequence and the mutated chain while
keeping the original partition. -/
theorem rem_full_deletion {s : List Char} {p : ChrmProf} (h : Reachable s p)
    (hne : p.chrm ≠ []) :
    p.rem 0 ((p.chrm.length : Int) - 1) = some (true, ⟨[], p.org, []⟩) := by
  have hp := reachable_inv h
  have hM1 : 1 ≤ (p.chrm.length : Int) := by
    have : p.chrm.length ≠ 0 := fun hz => hne (List.length_eq_zero.mp hz)
    omega
  have hpos := hp.mutLenPos hne
  have hmutne : p.mut_ ≠ [] := by
    intro hz
    have := hp.mutChain
    rw [hz, List.map_nil, Chain] at this
    omega
  have hib : p.isInBounds 0 ((p.chrm.length : Int) - 1) = true := by
    unfold ChrmProf.isInBounds
    simp only [Bool.not_eq_true', Bool.or_eq_false_iff, decide_eq_false_iff_not]
    omega
  have hsp : p.isSplitable 0 ((p.chrm.length : Int) - 1) = true := by
    unfold ChrmProf.isSplitable
    have e1 : ((p.chrm.length : Int) - 1) + 1 = (p.chrm.length : Int) := by ring
    rw [e1]
    simp
  have hcond : (!(p.isInBounds 0 ((p.chrm.length : Int) - 1)) ||
      !(p.isSplitable 0 ((p.chrm.length : Int) - 1))) = false := by
    rw [hib, hsp]
    rfl
  have hts : p.twoSplit 0 ((p.chrm.length : Int) - 1) = some p := by
    unfold ChrmProf.twoSplit
    rw [if_neg (by omega : ¬((0 : Int) > 0))]
    dsimp only
    rw [if_neg (by omega : ¬((p.chrm.length : Int) - 1 + 1 < (p.chrm.length : Int)))]
  match hmt : p.mut_ with
  | [] => exact absurd hmt hmutne
  | m0 :: rest =>
    have hm0 : m0.bgn = 0 := by
      have := hp.mutChain
      rw [hmt, List.map_cons, Chain] at this
      exact this.1
    have hfind1 : findSeg (fun m => m.bgn == (0 : Int)) p.mut_ = some ([], m0, rest) := by
      rw [hmt, findSeg, if_pos (by simp [hm0])]
    obtain ⟨pre2, lst, hdec2, hend2, hfind2⟩ :=
      findSeg_last_end hp.mutChain hpos hmutne
    have e2 : ((p.chrm.length : Int) - 1) + 1 = (p.chrm.length : Int) := by ring
    have ht1 : (tri_split_str p.chrm 0 ((p.chrm.length : Int) - 1)).1 = [] := by
      unfold tri_split_str
      simp
    have ht3 : (tri_split_str p.chrm 0 ((p.chrm.length : Int) - 1)).2.2 = [] := by
      unfold tri_split_str
      simp only
      rw [e2]
      simp
    unfold ChrmProf.rem
    rw [hcond]
    simp only [Bool.false_eq_true, if_false]
    rw [hts]
    dsimp only
    rw [hfind1]
    dsimp only
    rw [← hmt, hfind2]
    dsimp only
    rw [ht1, ht3]
    simp

/-- `_split` only creates segments whose `is_inv` is inherited from the
segment that was split. -/
theorem flags_splitAtPos {p p2 : ChrmProf} {k : Int} (h : p.splitAtPos k = some p2) :
    ∀ m' ∈ p2.mut_, ∃ m ∈ p.mut_, m'.is_inv = m.is_inv := by
  unfold ChrmProf.splitAtPos at h
  split at h
  · simp at h
    subst h
    exact fun m' hm' => ⟨m', hm', rfl⟩
  · match hf : findSeg (fun m => m.bgn ≤ k && k ≤ m.end_) p.mut_ with
    | none => rw [hf] at h; simp at h
    | some (pre0, sm, post0) =>
      rw [hf] at h
      dsimp only at h
      split at h
      · simp at h
        subst h
        exact fun m' hm' => ⟨m', hm', rfl⟩
      · simp only [Option.some.injEq] at h
        subst h
        intro m' hm'
        simp only at hm'
        rw [List.mem_flatMap] at hm'
        obtain ⟨m0, hm0, hmem⟩ := hm'
        by_cases hc : m0.pbgn = sm.pbgn ∧ m0.pend = sm.pend
        · rw [if_pos hc] at hmem
          simp only [MutSeg.split, List.mem_cons, List.not_mem_nil, or_false] at hmem
          rcases hmem with hmem | hmem <;> subst hmem <;> exact ⟨m0, hm0, rfl⟩
        · rw [if_neg hc] at hmem
          simp only [List.mem_singleton] at hmem
          subst hmem
          exact ⟨m', hm0, rfl⟩

/-- `_2split` only creates segments with inherited `is_inv`. -/
theorem flags_twoSplit {p p2 : ChrmProf} {b e : Int} (h : p.twoSplit b e = some p2) :
    ∀ m' ∈ p2.mut_, ∃ m ∈ p.mut_, m'.is_inv = m.is_inv := by
  unfold ChrmProf.twoSplit at h
  match h1 : (if b > 0 then p.splitAtPos b else some p) with
  | none => rw [h1] at h; simp at h
  | some p1 =>
    rw [h1] at h
    dsimp only at h
    have hstep1 : ∀ m' ∈ p1.mut_, ∃ m ∈ p.mut_, m'.is_inv = m.is_inv := by
      split at h1
      · exact flags_splitAtPos h1
      · simp at h1
        subst h1
        exact fun m' hm' => ⟨m', hm', rfl⟩
    have hstep2 : ∀ m' ∈ p2.mut_, ∃ m ∈ p1.mut_, m'.is_inv = m.is_inv := by
      split at h
      · exact flags_splitAtPos h
      · simp at h
        subst h
        exact fun m' hm' => ⟨m', hm', rfl⟩
    intro m' hm'
    obtain ⟨m1, hm1, he1⟩ := hstep2 m' hm'
    obtain ⟨m, hm, he2⟩ := hstep1 m1 hm1
    exact ⟨m, hm, he1.trans he2⟩

/-- `rem` never changes a surviving segment's orientation: every segment of
the result traces to a pre-call segment with the same `is_inv`. -/
theorem flags_rem {p p' : ChrmProf} {b e : Int} {r : Bool}
    (h : p.rem b e = some (r, p')) :
    ∀ m' ∈ p'.mut_, ∃ m ∈ p.mut_, m'.is_inv = m.is_inv := by
  cases r with
  | false =>
    rw [rem_false h]
    exact fun m' hm' => ⟨m', hm', rfl⟩
  | true =>
    obtain ⟨_, _, p2, pre, mid, post, ih, it, hts, hdec, _, _, _, _, _, _, hmut⟩ :=
      rem_success h
    have hts' := flags_twoSplit hts
    intro m' hm'
    rw [hmut] at hm'
    simp only [List.mem_append, List.mem_map] at hm'
    rcases hm' with hm' | ⟨m0, hm0, hq⟩
    · exact hts' m' (by rw [hdec]; simp only [List.mem_append]; tauto)
    · obtain ⟨m, hm, he⟩ := hts' m0 (by rw [hdec]; simp only [List.mem_append]; tauto)
      exact ⟨m, hm, by rw [← hq]; exact he⟩

/-- `amp` never changes a segment's orientation. -/
theorem flags_amp {p p' : ChrmProf} {b e : Int} {r : Bool}
    (h : p.amp b e = some (r, p')) :
    ∀ m' ∈ p'.mut_, ∃ m ∈ p.mut_, m'.is_inv = m.is_inv := by
  cases r with
  | false =>
    rw [amp_false h]
    exact fun m' hm' => ⟨m', hm', rfl⟩
  | true =>
    obtain ⟨_, _, p2, pre, mid, post, ih, it, hts, hdec, _, _, _, _, _, _, hmut⟩ :=
      amp_success h
    have hts' := flags_twoSplit hts
    intro m' hm'
    rw [hmut] at hm'
    simp only [List.mem_append, List.mem_map] at hm'
    rcases hm' with (hm' | hm') | ⟨m0, hm0, hq⟩
    · exact hts' m' (by rw [hdec]; simp only [List.mem_append]; tauto)
    · exact hts' m' (by rw [hdec]; simp only [List.mem_append]; tauto)
    · have hmm : m0 ∈ p2.mut_ := by
        rw [hdec]
        simp only [List.mem_append]
        rcases hm0 with hm0 | hm0 <;> tauto
      obtain ⟨m, hm, he⟩ := hts' m0 hmm
      exact ⟨m, hm, by rw [← hq]; exact he⟩

/-! ## The claims -/

/-- Claim C1, counterexample: on `ChrmProf("ATCCGA")`, `inv(1, 3)` succeeds,
but the immediate second `inv(1, 3)` returns `False` and changes nothing, so
the state after the double inversion is still the inverted state, not the
original one — double inversion is not an involution. -/
theorem claim_C1_counterexample :
    (ChrmProf.create cs6).inv 1 3 = some (true, pInv1) ∧
    pInv1.inv 1 3 = some (false, pInv1) ∧
    pInv1 ≠ ChrmProf.create cs6 := by
  refine ⟨by decide, by decide, by decide⟩

/-- Claim C1 (corrected): after a successful `invert(bgn, end)` with
`bgn > 0`, the immediately repeated `invert(bgn, end)` is rejected by the
`_is_splitable` guard (the first call's splits made `bgn` an existing
mutated-chain begin boundary) and returns `False` without touching the
state; double inversion therefore does not restore the pre-invert state
except possibly in the whole-chromosome case `bgn = 0`. -/
theorem claim_C1_second_invert_rejected (p p' : ChrmProf) (b e : Int) (hb : 0 < b)
    (h : p.inv b e = some (true, p')) : p'.inv b e = some (false, p') := by
  obtain ⟨hg1, _, p2, pre, mid, post, ih, it, _, _, _, hlast, _, hite, _, _, hmut⟩ :=
    inv_success h
  obtain ⟨l0, hl0⟩ := List.getLast?_eq_some_iff.mp hlast
  have hmem : mirrorSeg b e it ∈ p'.mut_ := by
    rw [hmut]
    simp only [List.mem_append, List.mem_reverse, List.mem_map]
    exact Or.inl (Or.inr ⟨it, by rw [hl0]; simp, rfl⟩)
  have halready : isAlreadyMutBgn p'.mut_ b = true := by
    unfold isAlreadyMutBgn
    rw [List.any_eq_true]
    refine ⟨mirrorSeg b e it, hmem, ?_⟩
    simp only [mirrorSeg, hite, beq_iff_eq]
    ring
  have hsp : p'.isSplitable b e = false := by
    unfold ChrmProf.isSplitable
    rw [halready]
    have hb0 : (b != 0) = true := by simp; omega
    rw [hb0]
    simp
  unfold ChrmProf.inv
  rw [hsp]
  simp

/-- Witness for C1: the concrete double inversion on `"ATCCGA"`. -/
theorem claim_C1_witness : pInv1.inv 1 3 = some (false, pInv1) :=
  claim_C1_second_invert_rejected (ChrmProf.create cs6) pInv1 1 3 (by decide) (by decide)

/-- Claim C2, counterexample: in a concrete `structuralVariantReads` run on
the post-deletion profile `"ABEF"` (one read centered at 1, read length 3),
the read crosses the junction; the breakpoint `(1, true)` and its mate
`(4, false)` hold reciprocal mate links, and the breakpoint's `mated_reads`
is 1 — but the mate's `mated_reads` is 0, not incremented as the claim
states. -/
theorem claim_C2_counterexample :
    (ChrmProf.create csABCDEF).rem 2 3 = some (true, pABEF) ∧
    pABEF.get_sv_read_nums [1] 3 =
      [((1, true), ⟨1, 1, some (4, false)⟩), ((4, false), ⟨0, 0, some (1, true)⟩)] ∧
    dFind (pABEF.get_sv_read_nums [1] 3) (1, true) = some ⟨1, 1, some (4, false)⟩ ∧
    dFind (pABEF.get_sv_read_nums [1] 3) (4, false) = some ⟨0, 0, some (1, true)⟩ := by
  refine ⟨by decide, by decide, by decide, by decide⟩

/-- Witness for C2: the amended theorem applied to the junction crossing of
the `pABEF` profile, starting from an empty record dict. -/
theorem claim_C2_witness :
    dFind (addSv [] pABEF.mut_ 0 false) (getCurPos ⟨0, 1, 0, 1, false⟩ false) =
      some ⟨1, 1, some (4, false)⟩ ∧
    dFind (addSv [] pABEF.mut_ 0 false) (4, false) =
      some ⟨0, 0, some (getCurPos ⟨0, 1, 0, 1, false⟩ false)⟩ := by
  obtain ⟨h1, h2⟩ := claim_C2_mated_reads_only_on_breakpoint [] pABEF.mut_ 0 false
    ⟨0, 1, 0, 1, false⟩ 4 false (by decide) (by decide) (by decide)
  exact ⟨by simpa using h1, by simpa using h2⟩

/-- Claim C3 (confirmed): on any reachable profile, a successful
`invert(bgn, end)` decomposes the post-split chain as `pre ++ mid ++ post`
with every segment of `mid` inside `[bgn, end]`, and replaces `mid` by its
reversal with each segment `[s0, s1]` remapped by `mirrorSeg` to
`[bgn + end - s1, bgn + end - s0]` — the mirror law, for all parities of the
region and segment lengths (`getInvPosDiff_eq`). -/
theorem claim_C3_mirror_law (s : List Char) (p p' : ChrmProf) (b e : Int)
    (hr : Reachable s p) (h : p.inv b e = some (true, p')) :
    ∃ p2 pre mid post,
      p.twoSplit b e = some p2 ∧
      p2.mut_ = pre ++ mid ++ post ∧
      (∀ m ∈ mid, b ≤ m.bgn ∧ m.bgn ≤ m.end_ ∧ m.end_ ≤ e) ∧
      p'.mut_ = pre ++ (mid.map (mirrorSeg b e)).reverse ++ post := by
  obtain ⟨hg1, _, p2, pre, mid, post, ih, it, hts, hdec, hhead, hlast, hihb, hite,
    _, _, hmut⟩ := inv_success h
  obtain ⟨hb0, hbe, heM⟩ := isInBounds_spec hg1
  have hp2 := twoSplit_inv (reachable_inv hr) hts
  have hch2 : p2.chrm = p.chrm := twoSplit_chrm hts
  have hne2 : p2.chrm ≠ [] := by
    rw [hch2]
    intro hnil
    rw [hnil] at heM
    simp at heM
    omega
  have hpos2 := hp2.mutLenPos hne2
  obtain ⟨hcpre, hcmid, hcpost⟩ :=
    chain_mid_bounds hdec hp2.mutChain hhead hlast hihb hite
  have hmidsub : ∀ m ∈ mid, m ∈ p2.mut_ := by
    intro m hm
    rw [hdec]
    simp only [List.mem_append]
    tauto
  have hbounds := chain_mem_bounds hcmid fun m hm => hpos2 m (hmidsub m hm)
  refine ⟨p2, pre, mid, post, hts, hdec, ?_, hmut⟩
  intro m hm
  have h1 := hbounds m hm
  have h2 := hpos2 m (hmidsub m hm)
  omega

/-- Witness for C3: the concrete inversion `inv(1, 3)` on `"ATCCGA"`. -/
theorem claim_C3_witness :
    ∃ p2 pre mid post,
      (ChrmProf.create cs6).twoSplit 1 3 = some p2 ∧
      p2.mut_ = pre ++ mid ++ post ∧
      (∀ m ∈ mid, 1 ≤ m.bgn ∧ m.bgn ≤ m.end_ ∧ m.end_ ≤ 3) ∧
      pInv1.mut_ = pre ++ (mid.map (mirrorSeg 1 3)).reverse ++ post :=
  claim_C3_mirror_law cs6 (ChrmProf.create cs6) pInv1 1 3 Reachable.init (by decide)

/-- Claim C4, counterexample: on `"ATCCGA"`, after `amp(1, 3)` the original
segment `(1, 3)` has copy number 2 (two descendants inside `[0, 8]`); the
subsequent successful `amp(0, 8)` raises its copy number to 4 — an increase
of 2, not the "exactly 1" the claim states for every overlapping original
segment. -/
theorem claim_C4_counterexample :
    (ChrmProf.create cs6).amp 1 3 = some (true, pAmp1) ∧
    (⟨1, 3⟩ : OrgSeg) ∈ pAmp1.org ∧
    copyNum pAmp1 1 3 = 2 ∧
    ((pAmp1.amp 0 8).map fun r => (r.1, copyNum r.2 1 3)) = some (true, 4) := by
  refine ⟨by decide, by decide, by decide, by decide⟩

/-- Claim C4 (corrected): a successful `amplify(bgn, end)` duplicates the
`[bgn, end]` sub-chain `mid`; the live sequence becomes
`prefix + S + S + suffix` and its length grows by exactly `end - bgn + 1`,
while the copy number of each original interval grows by the number of its
descendant segments inside the region (`countParent mid`) — which is 1 for
an original segment with a single descendant there but can be larger. -/
theorem claim_C4_amplify_effect (p p' : ChrmProf) (b e : Int)
    (h : p.amp b e = some (true, p')) :
    ∃ p2 pre mid post,
      p.twoSplit b e = some p2 ∧ p2.chrm = p.chrm ∧
      p2.mut_ = pre ++ mid ++ post ∧
      p'.org = p2.org ∧
      p'.chrm = (tri_split_str p.chrm b e).1 ++ (tri_split_str p.chrm b e).2.1 ++
        (tri_split_str p.chrm b e).2.1 ++ (tri_split_str p.chrm b e).2.2 ∧
      (p'.chrm.length : Int) = (p.chrm.length : Int) + (e - b + 1) ∧
      ∀ ob oe : Int, copyNum p' ob oe = copyNum p2 ob oe + countParent mid ob oe := by
  obtain ⟨hg1, _, p2, pre, mid, post, ih, it, hts, hdec, hhead, hlast, hihb, hite,
    horg, hchrm, hmut⟩ := amp_success h
  obtain ⟨hb0, hbe, heM⟩ := isInBounds_spec hg1
  have hch2 : p2.chrm = p.chrm := twoSplit_chrm hts
  obtain ⟨ht1, ht2, ht3⟩ := tri_split_len (s := p.chrm) hb0 hbe heM
  refine ⟨p2, pre, mid, post, hts, hch2, hdec, horg, ?_, ?_, ?_⟩
  · rw [hchrm, hch2]
  · rw [hchrm, hch2]
    simp only [List.length_append]
    push_cast
    omega
  · intro ob oe
    unfold copyNum
    rw [hmut, hdec]
    unfold countParent
    simp only [List.countP_append, List.countP_map]
    have hcongr : ∀ l : List MutSeg,
        (l.countP ((fun m => m.pbgn == ob && m.pend == oe) ∘ ampUp (e - b + 1))) =
        l.countP (fun m => m.pbgn == ob && m.pend == oe) := by
      intro l
      apply List.countP_congr
      intro m _
      simp [Function.comp, ampUp]
    rw [hcongr mid, hcongr post]
    omega

/-- Witness for C4: the concrete amplification `amp(1, 3)` on `"ATCCGA"`. -/
theorem claim_C4_witness :
    ∃ p2 pre mid post,
      (ChrmProf.create cs6).twoSplit 1 3 = some p2 ∧ p2.chrm = (ChrmProf.create cs6).chrm ∧
      p2.mut_ = pre ++ mid ++ post ∧
      pAmp1.org = p2.org ∧
      pAmp1.chrm = (tri_split_str (ChrmProf.create cs6).chrm 1 3).1 ++
        (tri_split_str (ChrmProf.create cs6).chrm 1 3).2.1 ++
        (tri_split_str (ChrmProf.create cs6).chrm 1 3).2.1 ++
        (tri_split_str (ChrmProf.create cs6).chrm 1 3).2.2 ∧
      (pAmp1.chrm.length : Int) = ((ChrmProf.create cs6).chrm.length : Int) + (3 - 1 + 1) ∧
      ∀ ob oe : Int, copyNum pAmp1 ob oe = copyNum p2 ob oe + countParent mid ob oe :=
  claim_C4_amplify_effect (ChrmProf.create cs6) pAmp1 1 3 (by decide)

/-- Claim C5 (code bug): on the fresh profile `ChrmProf("ATCCGA")` the call
`inv(5, 5)` (likewise `rem` / `amp`) passes both guards — it is neither
OutOfBounds nor an InvalidSplitPoint — yet instead of mutating and returning
`True` the code crashes: `_split(5)` is skipped by the erroneous
`splitMut.end == k` test (position 5 is the last node's `end`, not an
existing boundary), and the subsequent scan dereferences `None`.  The crash
is modelled as `none`. -/
theorem claim_C5_guards_pass_but_crash :
    (ChrmProf.create cs6).isInBounds 5 5 = true ∧
    (ChrmProf.create cs6).isSplitable 5 5 = true ∧
    (ChrmProf.create cs6).inv 5 5 = none ∧
    (ChrmProf.create cs6).rem 5 5 = none ∧
    (ChrmProf.create cs6).amp 5 5 = none := by
  refine ⟨by decide, by decide, by decide, by decide, by decide⟩

/-- Claim C6 (confirmed): on every state reachable from `create s` by any
sequence of `inv` / `rem` / `amp` calls, the original partition is a
contiguous ordered non-overlapping tiling of `[0, N)` (so its segment
lengths sum to `N`), and the mutated partition is a contiguous ordered
non-overlapping tiling of `[0, M)` where `M` is the current sequence length
(so its segment lengths sum to `M`). -/
theorem claim_C6_partition_invariant (s : List Char) (p : ChrmProf)
    (h : Reachable s p) :
    Chain 0 (p.org.map OrgSeg.iv) (s.length : Int) ∧
    Chain 0 (p.mut_.map MutSeg.iv) (p.chrm.length : Int) ∧
    ivLenSum (p.org.map OrgSeg.iv) = (s.length : Int) ∧
    ivLenSum (p.mut_.map MutSeg.iv) = (p.chrm.length : Int) ∧
    (∀ o ∈ p.org, o.bgn ≤ o.end_ + 1) ∧
    (∀ m ∈ p.mut_, m.bgn ≤ m.end_ + 1) := by
  have hp := reachable_inv h
  refine ⟨hp.orgChain, hp.mutChain, ?_, ?_, hp.orgLen0, hp.mutLen0⟩
  · have := chain_sum hp.orgChain
    omega
  · have := chain_sum hp.mutChain
    omega

/-- Witness for C6: the initial state of `"ATCCGA"`. -/
theorem claim_C6_witness :
    Chain 0 ((ChrmProf.create cs6).org.map OrgSeg.iv) ((cs6.length : Int)) ∧
    Chain 0 ((ChrmProf.create cs6).mut_.map MutSeg.iv)
      (((ChrmProf.create cs6).chrm.length : Int)) ∧
    ivLenSum ((ChrmProf.create cs6).org.map OrgSeg.iv) = (cs6.length : Int) ∧
    ivLenSum ((ChrmProf.create cs6).mut_.map MutSeg.iv) =
      (((ChrmProf.create cs6).chrm.length : Int)) ∧
    (∀ o ∈ (ChrmProf.create cs6).org, o.bgn ≤ o.end_ + 1) ∧
    (∀ m ∈ (ChrmProf.create cs6).mut_, m.bgn ≤ m.end_ + 1) :=
  claim_C6_partition_invariant cs6 (ChrmProf.create cs6) Reachable.init

/-- Claim C7, counterexample: `rem(1, 3)` on fresh `"ATCCGA"` succeeds, and
its other effects hold, but the OriginalPartition is *not* left completely
unchanged: the pre-call partition `[(0, 5)]` has become
`[(0, 0), (1, 3), (4, 5)]`, because the operator first runs `_2split`. -/
theorem claim_C7_counterexample :
    (ChrmProf.create cs6).rem 1 3 = some (true, pRem1) ∧
    pRem1.org ≠ (ChrmProf.create cs6).org := by
  refine ⟨by decide, by decide⟩

/-- Claim C7 (corrected): a successful `delete(bgn, end)` removes the
`[bgn, end]` sub-chain `mid`, shifting every remaining segment to its right
down by `end - bgn + 1`; the live sequence loses exactly the `[bgn, end]`
substring and `end - bgn + 1` characters; the copy number of each original
interval drops by its number of descendants in `mid`; and the
OriginalPartition equals the partition *after the `ensureBoundaries`
splits* — deletion itself removes no original segment, but the splits may
have refined the pre-call partition. -/
theorem claim_C7_delete_effect (p p' : ChrmProf) (b e : Int)
    (h : p.rem b e = some (true, p')) :
    ∃ p2 pre mid post,
      p.twoSplit b e = some p2 ∧ p2.chrm = p.chrm ∧
      p2.mut_ = pre ++ mid ++ post ∧
      p'.org = p2.org ∧
      p'.mut_ = pre ++ post.map (remDown (e - b + 1)) ∧
      p'.chrm = (tri_split_str p.chrm b e).1 ++ (tri_split_str p.chrm b e).2.2 ∧
      (p'.chrm.length : Int) = (p.chrm.length : Int) - (e - b + 1) ∧
      ∀ ob oe : Int, copyNum p2 ob oe = copyNum p' ob oe + countParent mid ob oe := by
  obtain ⟨hg1, _, p2, pre, mid, post, ih, it, hts, hdec, hhead, hlast, hihb, hite,
    horg, hchrm, hmut⟩ := rem_success h
  obtain ⟨hb0, hbe, heM⟩ := isInBounds_spec hg1
  have hch2 : p2.chrm = p.chrm := twoSplit_chrm hts
  obtain ⟨ht1, ht2, ht3⟩ := tri_split_len (s := p.chrm) hb0 hbe heM
  refine ⟨p2, pre, mid, post, hts, hch2, hdec, horg, hmut, ?_, ?_, ?_⟩
  · rw [hchrm, hch2]
  · rw [hchrm, hch2]
    simp only [List.length_append]
    push_cast
    omega
  · intro ob oe
    unfold copyNum
    rw [hmut, hdec]
    unfold countParent
    simp only [List.countP_append, List.countP_map]
    have hcongr : (post.countP ((fun m => m.pbgn == ob && m.pend == oe) ∘ remDown (e - b + 1))) =
        post.countP (fun m => m.pbgn == ob && m.pend == oe) := by
      apply List.countP_congr
      intro m _
      simp [Function.comp, remDown]
    rw [hcongr]
    omega

/-- Witness for C7: the concrete deletion `rem(1, 3)` on `"ATCCGA"`. -/
theorem claim_C7_witness :
    ∃ p2 pre mid post,
      (ChrmProf.create cs6).twoSplit 1 3 = some p2 ∧ p2.chrm = (ChrmProf.create cs6).chrm ∧
      p2.mut_ = pre ++ mid ++ post ∧
      pRem1.org = p2.org ∧
      pRem1.mut_ = pre ++ post.map (remDown (3 - 1 + 1)) ∧
      pRem1.chrm = (tri_split_str (ChrmProf.create cs6).chrm 1 3).1 ++
        (tri_split_str (ChrmProf.create cs6).chrm 1 3).2.2 ∧
      (pRem1.chrm.length : Int) = ((ChrmProf.create cs6).chrm.length : Int) - (3 - 1 + 1) ∧
      ∀ ob oe : Int, copyNum p2 ob oe = copyNum pRem1 ob oe + countParent mid ob oe :=
  claim_C7_delete_effect (ChrmProf.create cs6) pRem1 1 3 (by decide)

/-- Claim C8 (confirmed): every key present in the mapping returned by
`get_sv_read_nums` has a resolved mate — records that never acquired a
`mate` are filtered out before the mapping is returned. -/
theorem claim_C8_all_entries_mated (p : ChrmProf) (ps : List Int) (rl : Int)
    (k : Int × Bool) (r : SvRec)
    (h : dFind (p.get_sv_read_nums ps rl) k = some r) : r.mate.isSome = true := by
  unfold ChrmProf.get_sv_read_nums at h
  exact dFind_filter_mate h

/-- Witness for C8: the junction entry of the concrete `pABEF` run. -/
theorem claim_C8_witness :
    dFind (pABEF.get_sv_read_nums [1] 3) (1, true) = some svRecC8 ∧
    svRecC8.mate.isSome = true :=
  ⟨by decide, claim_C8_all_entries_mated pABEF [1] 3 (1, true) svRecC8 (by decide)⟩

/-- Claim C9 (confirmed): splitting a mutated segment yields two halves that
both carry the source's `is_inv` flag; the copies made by `amplify` keep
their source's `is_inv` and parent interval, and the duplicated run sits
right after the original run; and jointly, `_split`, `rem` and `amp` never
change any segment's orientation — every segment of the result has the
`is_inv` of a pre-call segment it descends from. -/
theorem claim_C9_orientation_preserved :
    (∀ (m : MutSeg) (k : Int),
      (m.split k).1.is_inv = m.is_inv ∧ (m.split k).2.is_inv = m.is_inv) ∧
    (∀ (sl : Int) (m : MutSeg),
      (ampUp sl m).is_inv = m.is_inv ∧ (ampUp sl m).pbgn = m.pbgn ∧
        (ampUp sl m).pend = m.pend) ∧
    (∀ (p p' : ChrmProf) (b e : Int), p.amp b e = some (true, p') →
      ∃ p2 pre mid post, p.twoSplit b e = some p2 ∧ p2.mut_ = pre ++ mid ++ post ∧
        p'.mut_ = (pre ++ mid) ++ (mid ++ post).map (ampUp (e - b + 1))) ∧
    (∀ (p p2 : ChrmProf) (k : Int), p.splitAtPos k = some p2 →
      ∀ m' ∈ p2.mut_, ∃ m ∈ p.mut_, m'.is_inv = m.is_inv) ∧
    (∀ (p p' : ChrmProf) (b e : Int) (r : Bool), p.rem b e = some (r, p') →
      ∀ m' ∈ p'.mut_, ∃ m ∈ p.mut_, m'.is_inv = m.is_inv) ∧
    (∀ (p p' : ChrmProf) (b e : Int) (r : Bool), p.amp b e = some (r, p') →
      ∀ m' ∈ p'.mut_, ∃ m ∈ p.mut_, m'.is_inv = m.is_inv) := by
  refine ⟨fun m k => ⟨rfl, rfl⟩, fun sl m => ⟨rfl, rfl, rfl⟩, ?_, ?_, ?_, ?_⟩
  · intro p p' b e h
    obtain ⟨_, _, p2, pre, mid, post, ih, it, hts, hdec, _, _, _, _, _, _, hmut⟩ :=
      amp_success h
    exact ⟨p2, pre, mid, post, hts, hdec, hmut⟩
  · intro p p2 k h
    exact flags_splitAtPos h
  · intro p p' b e r h
    exact flags_rem h
  · intro p p' b e r h
    exact flags_amp h

/-- Witness for C9: a concrete split of an inverted segment, and the
concrete deletion on `"ATCCGA"`. -/
theorem claim_C9_witness :
    (((⟨1, 3, 1, 3, true⟩ : MutSeg).split 1).1.is_inv = true ∧
      ((⟨1, 3, 1, 3, true⟩ : MutSeg).split 1).2.is_inv = true) ∧
    ((ChrmProf.create cs6).rem 1 3 = some (true, pRem1) ∧
      ∀ m' ∈ pRem1.mut_, ∃ m ∈ (ChrmProf.create cs6).mut_, m'.is_inv = m.is_inv) := by
  constructor
  · exact claim_C9_orientation_preserved.1 ⟨1, 3, 1, 3, true⟩ 1
  · exact ⟨by decide,
      claim_C9_orientation_preserved.2.2.2.2.1 (ChrmProf.create cs6) pRem1 1 3 true (by decide)⟩

/-- Claim C10 (confirmed): on every reachable profile with nonempty live
sequence, `rem(0, M-1)` succeeds, leaving the sequence and the mutated chain
empty while the OriginalPartition is retained with all copy numbers 0; every
subsequent `inv` / `rem` / `amp` call is then rejected. -/
theorem claim_C10_full_deletion (s : List Char) (p : ChrmProf)
    (h : Reachable s p) (hne : p.chrm ≠ []) :
    ∃ p', p.rem 0 ((p.chrm.length : Int) - 1) = some (true, p') ∧
      p'.chrm = [] ∧ p'.mut_ = [] ∧ p'.org = p.org ∧
      (∀ o ∈ p'.org, copyNum p' o.bgn o.end_ = 0) ∧
      ∀ b e : Int, p'.inv b e = some (false, p') ∧ p'.rem b e = some (false, p') ∧
        p'.amp b e = some (false, p') := by
  refine ⟨⟨[], p.org, []⟩, rem_full_deletion h hne, rfl, rfl, rfl, ?_, ?_⟩
  · intro o ho
    rfl
  · intro b e
    exact ops_on_empty ⟨[], p.org, []⟩ rfl b e

/-- Witness for C10: the fresh profile of the one-letter chromosome `"A"`. -/
theorem claim_C10_witness :
    ∃ p', (ChrmProf.create ['A']).rem 0
        (((ChrmProf.create ['A']).chrm.length : Int) - 1) = some (true, p') ∧
      p'.chrm = [] ∧ p'.mut_ = [] ∧ p'.org = (ChrmProf.create ['A']).org ∧
      (∀ o ∈ p'.org, copyNum p' o.bgn o.end_ = 0) ∧
      ∀ b e : Int, p'.inv b e = some (false, p') ∧ p'.rem b e = some (false, p') ∧
        p'.amp b e = some (false, p') :=
  claim_C10_full_deletion ['A'] (ChrmProf.create ['A']) Reachable.init (by decide)
